import Mathlib

/-!
# N-queens through an SMT solver: the constraint builder and the enumeration loop

A shallow embedding of `src/main.cpp`.

* The Z3 expressions that the program builds are the data types `IntExpr`
  (integer sort) and `BoolExpr` (boolean sort); their meaning under a model is
  `IntExpr.eval` and `BoolExpr.eval`.  Z3 integers are unbounded, so they are
  `Int`.
* A `z3::solver` is the list of the assertions added so far; `solver.add`
  appends one.
* The decision procedure itself is not part of the program: it is a parameter
  `z3_oracle` giving the answer of `check()` and of `get_model()` for every
  assertion list.
* The `while` loop of `queen_solve` is `enum_loop`, a function with fuel.
* A Z3 exception (an index outside an `expr_vector`, a numeral that does not
  fit an `int`) and an out-of-bounds write are explicit faults.
-/

namespace QueensZ3

/-! ## Expressions and models -/

/-- Integer-sorted `z3::expr` values built by the program. -/
inductive IntExpr where
  /-- The constant made by `c.int_const(name)`. -/
  | int_const (name : String)
  /-- An integer numeral: a C++ `int` converted to an expression, or a value read from a model. -/
  | int_val (v : Int)
  | add (a b : IntExpr)
  | sub (a b : IntExpr)
  | mul (a b : IntExpr)
  /-- The expression made by `z3::abs`. -/
  | abs (a : IntExpr)
deriving DecidableEq

/-- Boolean-sorted `z3::expr` values built by the program. -/
inductive BoolExpr where
  | lt (a b : IntExpr)
  | ge (a b : IntExpr)
  | le (a b : IntExpr)
  | eq (a b : IntExpr)
  | and (a b : BoolExpr)
  | not (a : BoolExpr)
  /-- The expression made by `distinct(t)`. -/
  | distinct (t : List IntExpr)
  /-- The expression made by `z3::mk_and(t)`. -/
  | mk_and (t : List BoolExpr)

/-- A `z3::model`: the value of every integer constant, by name. -/
abbrev model := String → Int

/-- Value of an integer expression under a model. -/
def IntExpr.eval (m : model) : IntExpr → Int
  | .int_const name => m name
  | .int_val v => v
  | .add a b => a.eval m + b.eval m
  | .sub a b => a.eval m - b.eval m
  | .mul a b => a.eval m * b.eval m
  | .abs a => if a.eval m ≥ 0 then a.eval m else -(a.eval m)

/-- Meaning of `distinct`: the values are pairwise different. -/
def distinct_vals : List Int → Bool
  | [] => true
  | v :: vs => !(vs.contains v) && distinct_vals vs

mutual
/-- Truth value of a boolean expression under a model. -/
def BoolExpr.eval (m : model) : BoolExpr → Bool
  | .lt a b => decide (a.eval m < b.eval m)
  | .ge a b => decide (a.eval m ≥ b.eval m)
  | .le a b => decide (a.eval m ≤ b.eval m)
  | .eq a b => decide (a.eval m = b.eval m)
  | .and a b => a.eval m && b.eval m
  | .not a => !(a.eval m)
  | .distinct t => distinct_vals (t.map (IntExpr.eval m))
  | .mk_and t => BoolExpr.evalAll m t
/-- Truth value of a conjunction of boolean expressions; the empty one is true. -/
def BoolExpr.evalAll (m : model) : List BoolExpr → Bool
  | [] => true
  | f :: fs => f.eval m && BoolExpr.evalAll m fs
end

/-- The result of `model.eval(e)` on an integer expression: the numeral of its value. -/
def model_eval (m : model) (e : IntExpr) : IntExpr :=
  .int_val (e.eval m)

/-- The function `expr::get_numeral_int`: the C++ `int` of a numeral, an exception
(`none`) when the expression is no numeral or does not fit 32 bits. -/
def get_numeral_int : IntExpr → Option Int
  | .int_val v => if -2147483648 ≤ v ∧ v ≤ 2147483647 then some v else none
  | _ => none

/-! ## The solver -/

/-- A `z3::solver`: the assertions added so far, oldest first. -/
structure solver where
  assertions : List BoolExpr

/-- The call `s.add(e)`. -/
def solver.add (s : solver) (e : BoolExpr) : solver :=
  ⟨s.assertions ++ [e]⟩

/-- A model satisfies a solver when every assertion is true under it. -/
def solver.holds (s : solver) (m : model) : Bool :=
  BoolExpr.evalAll m s.assertions

/-- Answers of `solver.check()`. -/
inductive check_result where
  | unsat
  | sat
  | unknown
deriving DecidableEq

/-- The external decision procedure: what `check()` answers and what
`get_model()` returns, for every assertion list. -/
structure z3_oracle where
  check : List BoolExpr → check_result
  get_model : List BoolExpr → model

/-! ## The functions of main.cpp -/

/-- The C string that `c_str()` hands to the Z3 API: the characters before the first NUL. -/
def c_str (s : String) : String :=
  ⟨s.data.takeWhile (fun c => c != Char.ofNat 0)⟩

/-- Lines 9-11: the loop of `create_vector_with_num_names`, run for at most `fuel`
evaluations of its condition (`none` when the fuel does not suffice).  The counter `i` is an
`unsigned`, so `i++` wraps at 2^32; it is compared with the `size_t` count `n` without a
wrap.  The name reaches `int_const` through `c_str()`. -/
def create_vector_loop (n : Nat) (name : String) :
    Nat → Nat → List IntExpr → Option (List IntExpr)
  | 0, _, _ => none
  | fuel + 1, i, xs =>
    if i < n then
      create_vector_loop n name fuel ((i + 1) % 4294967296)
        (xs ++ [IntExpr.int_const (c_str (name ++ toString i))])
    else some xs

/-- Lines 5-13: the vector of the integer constants `name_0, name_1, ...`, as the loop
builds it. -/
def create_vector_with_num_names (n : Nat) (name : String) (fuel : Nat) :
    Option (List IntExpr) :=
  let name := name ++ "_"
  create_vector_loop n name fuel 0 []

/-- The vector that `create_vector_with_num_names` returns for a count below 2^32 and a name
without a NUL character (theorem `create_vector_returns`): the constants
`name_0 .. name_(n-1)`. -/
def created_vector (n : Nat) (name : String) : List IntExpr :=
  let name := name ++ "_"
  (List.range n).foldl (fun xs i => xs ++ [IntExpr.int_const (name ++ toString i)]) []

/-- Lines 15-20: consecutive queens are in strictly increasing row-major order.
An index outside a vector is a Z3 exception (`none`). -/
def set_queens_order (s : solver) (xs ys : List IntExpr) (board_size : Int) : Option solver :=
  (List.range' 1 (xs.length - 1)).foldlM (fun s i => do
    let y0 ← ys[i - 1]?
    let x0 ← xs[i - 1]?
    let y1 ← ys[i]?
    let x1 ← xs[i]?
    pure (s.add (.lt (.add (.mul y0 (.int_val board_size)) x0)
                     (.add (.mul y1 (.int_val board_size)) x1)))) s

/-- Lines 22-27: every value is between 1 and `board_size`. -/
def set_board_size_limit (s : solver) (xs : List IntExpr) (board_size : Int) : solver :=
  xs.foldl (fun s x => s.add (.and (.ge x (.int_val 1)) (.le x (.int_val board_size)))) s

/-- Lines 29-35: the values are pairwise distinct.  This is the call for a vector that is
not empty; what `distinct` of the Z3 C++ API does with an empty vector is decided outside
the sources and is not modelled. -/
def set_values_distinct (s : solver) (xs : List IntExpr) : solver :=
  let t := xs.foldl (fun t x => t ++ [x]) []
  s.add (.distinct t)

/-- Lines 37-40: the two queens are on a common diagonal. -/
def get_queens_on_diag_expr (x1 y1 x2 y2 : IntExpr) : BoolExpr :=
  .eq (.abs (.sub x2 x1)) (.abs (.sub y2 y1))

/-- Lines 42-48: no two queens are on a common diagonal.
An index outside a vector is a Z3 exception (`none`). -/
def restrict_one_queen_on_diag (s : solver) (xs ys : List IntExpr) : Option solver :=
  (List.range xs.length).foldlM (fun s i =>
    (List.range' (i + 1) (ys.length - (i + 1))).foldlM (fun s j => do
      let xi ← xs[i]?
      let yi ← ys[i]?
      let xj ← xs[j]?
      let yj ← ys[j]?
      pure (s.add (.not (get_queens_on_diag_expr xi yi xj yj)))) s) s

/-- Lines 50-59: the position of every queen in the model, as C++ `int` pairs. -/
def get_queens_positions (m : model) (xs ys : List IntExpr) : Option (List (Int × Int)) :=
  (List.range xs.length).foldlM (fun positions i => do
    let xi ← xs[i]?
    let yi ← ys[i]?
    let x := model_eval m xi
    let y := model_eval m yi
    let xv ← get_numeral_int x
    let yv ← get_numeral_int y
    pure (positions ++ [(xv, yv)])) []

/-- Lines 70-72 of `print_board`: the grid, filled with `'+'`, then `'Q'` written at
`board[y - 1][x - 1]` for every position; a write outside the grid is `none`. -/
def print_board_grid (positions : List (Int × Int)) (board_size : Nat) :
    Option (List (List Char)) :=
  positions.foldlM (fun board (p : Int × Int) =>
    if 1 ≤ p.2 ∧ p.2 ≤ board_size ∧ 1 ≤ p.1 ∧ p.1 ≤ board_size then
      some (board.modify (fun row => row.set (p.1 - 1).toNat 'Q') (p.2 - 1).toNat)
    else none)
    (List.replicate board_size (List.replicate board_size '+'))

/-- Lines 68-79: the text written by `print_board`, every cell followed by a blank and
every row by a newline. -/
def print_board (positions : List (Int × Int)) (board_size : Nat) : Option String :=
  (print_board_grid positions board_size).map fun board =>
    board.foldl (fun out row =>
      row.foldl (fun out elem => (out.push elem).push ' ') out ++ "\n") ""

/-- Lines 81-90: the blocking clause of a model, the negation of
"every queen is where the model puts it". -/
def add_solution_to_solver (s : solver) (m : model) (xs ys : List IntExpr) : Option solver := do
  let is_cur_solution ← (List.range xs.length).foldlM (fun v i => do
    let xi ← xs[i]?
    let yi ← ys[i]?
    let x := model_eval m xi
    let y := model_eval m yi
    pure (v ++ [BoolExpr.and (.eq xi x) (.eq yi y)])) []
  pure (s.add (.not (.mk_and is_cur_solution)))

/-- The 32-bit two's complement wrap of a C++ `int`: the value of `solutions_count++`
past 2147483647 (the counter of line 110 is an `int`). -/
def int_wrap (v : Int) : Int :=
  (v + 2147483648) % 4294967296 - 2147483648

/-- The local `xs` of `queen_solve` (line 96): what `create_vector_with_num_names` returns
for the count `queen_count`, an `int`, and the name `"x"` (theorem `queen_vectors_created`). -/
def queen_xs (queen_count : Nat) : List IntExpr :=
  created_vector queen_count "x"

/-- The local `ys` of `queen_solve` (line 97): what `create_vector_with_num_names` returns
for the count `queen_count`, an `int`, and the name `"y"` (theorem `queen_vectors_created`). -/
def queen_ys (queen_count : Nat) : List IntExpr :=
  created_vector queen_count "y"

/-- Lines 99-108: the fresh solver after the six constraint-builder calls. -/
def build_constraints (xs ys : List IntExpr) (queen_count : Nat) : Option solver := do
  let s : solver := ⟨[]⟩
  let s ← set_queens_order s xs ys queen_count
  let s := set_board_size_limit s xs queen_count
  let s := set_board_size_limit s ys queen_count
  let s := set_values_distinct s xs
  let s := set_values_distinct s ys
  restrict_one_queen_on_diag s xs ys

/-- The constraint set built by `queen_solve(queen_count)`: the solver at the first
evaluation of the loop condition. -/
def queen_constraints (queen_count : Nat) : Option solver :=
  build_constraints (queen_xs queen_count) (queen_ys queen_count) queen_count

/-- The variables of the enumeration loop, with the text written so far and the
history of the models returned by `get_model()`. -/
structure loop_state where
  solver : solver
  solutions_count : Int
  stdout : String
  models : List model

/-- How a run ends. -/
inductive outcome where
  /-- The loop was left because `check()` did not answer `sat`. -/
  | finished (st : loop_state)
  /-- A Z3 exception or an out-of-bounds write. -/
  | fault (st : loop_state)
  /-- The fuel given to the loop did not suffice. -/
  | out_of_fuel (st : loop_state)

/-- Lines 111-120: the `while` loop, run for at most `fuel` evaluations of its condition.
The state of the outcome `out_of_fuel` is the state at the next evaluation of the
condition, so the outcomes for all amounts of fuel show the state at every loop head. -/
def enum_loop (o : z3_oracle) (xs ys : List IntExpr) (queen_count : Nat) :
    Nat → loop_state → outcome
  | 0, st => .out_of_fuel st
  | fuel + 1, st =>
    if o.check st.solver.assertions = .sat then
      let m := o.get_model st.solver.assertions
      match get_queens_positions m xs ys with
      | none => .fault st
      | some positions =>
        match print_board positions queen_count with
        | none => .fault st
        | some text =>
          match add_solution_to_solver st.solver m xs ys with
          | none => .fault st
          | some s =>
            enum_loop o xs ys queen_count fuel
              { solver := s
                solutions_count := int_wrap (st.solutions_count + 1)
                stdout := st.stdout ++ "\n" ++ text
                models := st.models ++ [m] }
    else .finished st

/-- The state of a run when it ended. -/
def outcome.state : outcome → loop_state
  | .finished st => st
  | .fault st => st
  | .out_of_fuel st => st

/-- The loop was left through its condition. -/
def outcome.is_finished : outcome → Bool
  | .finished _ => true
  | _ => false

/-- Lines 94 and 110: the variables at the first evaluation of the loop condition. -/
def initial_state (s : solver) (queen_count : Nat) : loop_state :=
  { solver := s
    solutions_count := 0
    stdout := "run queen solve for n=" ++ toString queen_count ++ "\n"
    models := [] }

/-- Line 121: the summary line, written when the loop was left. -/
def write_summary (queen_count : Nat) : outcome → outcome
  | .finished st =>
    let summary := "solutions count for n = " ++ toString queen_count ++ ": " ++
      toString st.solutions_count ++ "\n\n"
    .finished { st with stdout := st.stdout ++ summary }
  | r => r

/-- Lines 92-122: `queen_solve`, its loop run with `fuel`.  `queen_count` is a C++ `int`
that is not negative. -/
def queen_solve (o : z3_oracle) (queen_count : Nat) (fuel : Nat) : outcome :=
  let xs := queen_xs queen_count
  let ys := queen_ys queen_count
  match build_constraints xs ys queen_count with
  | none => .fault (initial_state ⟨[]⟩ queen_count)
  | some s => write_summary queen_count
      (enum_loop o xs ys queen_count fuel (initial_state s queen_count))

/-- Value that a model gives to the `i`-th expression of a vector (0 past its end). -/
def value_at (m : model) (v : List IntExpr) (i : Nat) : Int :=
  match v[i]? with
  | some e => e.eval m
  | none => 0

/-! ## Definitions used by the proofs -/

/-- The `i`-th column variable. -/
def xvar (i : Nat) : IntExpr := .int_const (("x" ++ "_") ++ toString i)

/-- The `i`-th row variable. -/
def yvar (i : Nat) : IntExpr := .int_const (("y" ++ "_") ++ toString i)

/-- The ordering constraint between queens `i - 1` and `i`. -/
def order_expr (n : Nat) (i : Nat) : BoolExpr :=
  .lt (.add (.mul (yvar (i - 1)) (.int_val n)) (xvar (i - 1)))
      (.add (.mul (yvar i) (.int_val n)) (xvar i))

/-- The bounding constraint of one variable. -/
def bound_expr (n : Nat) (e : IntExpr) : BoolExpr :=
  .and (.ge e (.int_val 1)) (.le e (.int_val n))

/-- The anti-diagonal constraint of the pair `i`, `j`. -/
def diag_expr (i j : Nat) : BoolExpr :=
  .not (get_queens_on_diag_expr (xvar i) (yvar i) (xvar j) (yvar j))

/-- All the assertions of `build_constraints`, in the order they are added. -/
def constraint_list (n : Nat) : List BoolExpr :=
  (List.range' 1 (n - 1)).map (order_expr n) ++
  ((List.range n).map xvar).map (bound_expr n) ++
  ((List.range n).map yvar).map (bound_expr n) ++
  [.distinct ((List.range n).map xvar)] ++
  [.distinct ((List.range n).map yvar)] ++
  (List.range n).flatMap (fun i => (List.range' (i + 1) (n - (i + 1))).map (diag_expr i))

/-- Column of queen `i` in a model. -/
def xval (m : model) (i : Nat) : Int := (xvar i).eval m

/-- Row of queen `i` in a model. -/
def yval (m : model) (i : Nat) : Int := (yvar i).eval m

/-- The four constraint families, on the columns `X` and rows `Y` of the queens. -/
structure placement_ok (n : Nat) (X Y : Nat → Int) : Prop where
  order : ∀ i, 1 ≤ i → i < n → Y (i - 1) * n + X (i - 1) < Y i * n + X i
  xbound : ∀ i, i < n → 1 ≤ X i ∧ X i ≤ n
  ybound : ∀ i, i < n → 1 ≤ Y i ∧ Y i ≤ n
  xdistinct : ∀ i j, i < n → j < n → i ≠ j → X i ≠ X j
  ydistinct : ∀ i j, i < n → j < n → i ≠ j → Y i ≠ Y j
  diag : ∀ i j, i < j → j < n → |X j - X i| ≠ |Y j - Y i|

/-- A sample model: the placement B1, D2, A3, C4 on the board of size four. -/
def sample_model_4 : model := fun v =>
  if v = "x_0" then 2 else if v = "x_1" then 4 else if v = "x_2" then 1 else
  if v = "x_3" then 3 else if v = "y_0" then 1 else if v = "y_1" then 2 else
  if v = "y_2" then 3 else if v = "y_3" then 4 else 0

/-- Value of a decimal digit character. -/
def digit_value (c : Char) : Nat := c.toNat - 48

/-- The number that a list of decimal digits denotes, continuing from `acc`. -/
def decode_digits (acc : Nat) (ds : List Char) : Nat :=
  ds.foldl (fun acc c => acc * 10 + digit_value c) acc

/-- The model that gives the variable `x_i` the value `X i` and `y_i` the value `Y i`. -/
def model_of (X Y : Nat → Int) : model := fun v =>
  match v.data with
  | 'x' :: '_' :: ds => X (decode_digits 0 ds)
  | 'y' :: '_' :: ds => Y (decode_digits 0 ds)
  | _ => 0

/-- The columns of a placement: within the board, pairwise distinct, and no two on a
common diagonal of the rows `1 .. n`. -/
structure columns_ok (n : Nat) (X : Nat → Int) : Prop where
  bound : ∀ i, i < n → 1 ≤ X i ∧ X i ≤ n
  distinct : ∀ i j, i < j → j < n → X i ≠ X j
  diag : ∀ i j, i < j → j < n → |X j - X i| ≠ (j : Int) - i

/-- The values a model gives to the variables, queen by queen: the assignment restricted
to `xs` and `ys`. -/
def model_values (m : model) (xs ys : List IntExpr) : List (Int × Int) :=
  (List.range xs.length).map (fun i => (value_at m xs i, value_at m ys i))

/-- A queen in column `c` is attacked by none of the queens in the columns `qs`, which stand
`d`, `d + 1`, ... rows away. -/
def safe_against (c : Nat) : Nat → List Nat → Bool
  | _, [] => true
  | d, q :: qs => c != q && c + d != q && q + d != c && safe_against c (d + 1) qs

/-- One more row: every safe column of the board, put before every partial placement. -/
def extend_rows (n : Nat) (partials : List (List Nat)) : List (List Nat) :=
  partials.flatMap fun qs =>
    ((List.range' 1 n).filter (fun c => safe_against c 1 qs)).map (fun c => c :: qs)

/-- All placements of non-attacking queens in the first `k` rows of the board of size `n`,
as lists of columns, last row first. -/
def queens (n : Nat) : Nat → List (List Nat)
  | 0 => [[]]
  | k + 1 => extend_rows n (queens n k)

/-- The columns `X (k - 1), ..., X 0`. -/
def desc (X : Nat → Nat) : Nat → List Nat
  | 0 => []
  | k + 1 => X k :: desc X k

/-- The assignment that a list of columns (last row first) stands for: queen `i` in row
`i + 1`. -/
def placement_of (r : List Nat) : List (Int × Int) :=
  List.zipWith (fun (c i : Nat) => ((c : Int), (i : Int) + 1)) r.reverse (List.range r.length)

/-- The columns of a partial placement on `Nat`: within the board and non-attacking. -/
def cols_ok (n k : Nat) (X : Nat → Nat) : Prop :=
  (∀ i, i < k → 1 ≤ X i ∧ X i ≤ n) ∧
  ∀ i j, i < j → j < k → X j ≠ X i ∧ X j + (j - i) ≠ X i ∧ X i + (j - i) ≠ X j

/-- The satisfying assignments of the constraint set of `queen_solve(n)`: the values that
its models give to the variables `x_0 .. x_(n-1)`, `y_0 .. y_(n-1)`. -/
def satisfying_assignments (n : Nat) : Set (List (Int × Int)) :=
  {a | ∃ s m, queen_constraints n = some s ∧ s.holds m = true ∧
    model_values m (queen_xs n) (queen_ys n) = a}

/-- A value that fits a C++ `int`. -/
def in_int_range (v : Int) : Prop := -2147483648 ≤ v ∧ v ≤ 2147483647

instance in_int_range_decidable (v : Int) : Decidable (in_int_range v) :=
  inferInstanceAs (Decidable (-2147483648 ≤ v ∧ v ≤ 2147483647))

/-- The blocking clause that `add_solution_to_solver` adds for the model `m`. -/
def block_expr (n : Nat) (m : model) : BoolExpr :=
  .not (.mk_and ((List.range n).map (fun i =>
    BoolExpr.and (.eq (xvar i) (model_eval m (xvar i))) (.eq (yvar i) (model_eval m (yvar i))))))

/-- Soundness of the `sat` answers of an oracle: whenever `check()` answers `sat`, the model
of `get_model()` satisfies the assertions that were checked. -/
def oracle_sound (o : z3_oracle) : Prop :=
  ∀ l, o.check l = .sat → BoolExpr.evalAll (o.get_model l) l = true

/-- The invariant of the enumeration loop, at every evaluation of its condition: the
assertions are the constraint set followed by the blocking clauses of the reported models,
every reported model satisfies the constraint set, no two reported models agree on all the
variables, and the counter is the number of reported models. -/
def loop_inv (n : Nat) (st : loop_state) : Prop :=
  st.solver.assertions = constraint_list n ++ st.models.map (block_expr n) ∧
  (∀ m ∈ st.models, BoolExpr.evalAll m (constraint_list n) = true) ∧
  (st.models.map (fun m => model_values m (queen_xs n) (queen_ys n))).Nodup ∧
  st.solutions_count = int_wrap st.models.length

/-- A run did not end in a fault. -/
def outcome.no_fault : outcome → Bool
  | .fault _ => false
  | _ => true

/-- The model that a list of columns (last row first) stands for. -/
def candidate_model (r : List Nat) : model :=
  model_of (fun i => ((r.reverse.getD i 0 : Nat) : Int)) (fun i => (i : Int) + 1)

/-- A decision procedure by exhaustive search: it tries the model of every enumerated
placement of the board of size `n`. -/
def brute_oracle (n : Nat) : z3_oracle where
  check := fun l =>
    if ((queens n n).map candidate_model).any (fun m => BoolExpr.evalAll m l) then .sat
    else .unsat
  get_model := fun l =>
    (((queens n n).map candidate_model).find? (fun m => BoolExpr.evalAll m l)).getD
      (fun _ => 0)

/-- Two models agree on the value of every variable `x_i`, `y_i` of `queen_solve(n)`. -/
def models_agree (n : Nat) (m m' : model) : Prop :=
  ∀ i, i < n → value_at m (queen_xs n) i = value_at m' (queen_xs n) i ∧
    value_at m (queen_ys n) i = value_at m' (queen_ys n) i

/-- An oracle that knows one model only: the sample placement on the board of size four. -/
def sample_oracle : z3_oracle where
  check := fun l => if BoolExpr.evalAll sample_model_4 l then .sat else .unsat
  get_model := fun _ => sample_model_4

/-- The set of squares of an assignment: the positions of its queens, queen labels
forgotten. -/
def squares_of (a : List (Int × Int)) : Finset (Int × Int) := a.toFinset

/-- The classical N-queens solutions, stated after the words of the specification and
independently of the program: the sets of `n` squares (column, row) of the `n × n` board,
no two of them in a common column, row or diagonal. -/
def classical_queens (n : Nat) : Set (Finset (Int × Int)) :=
  {S | S.card = n ∧
    (∀ p ∈ S, 1 ≤ p.1 ∧ p.1 ≤ n ∧ 1 ≤ p.2 ∧ p.2 ≤ n) ∧
    ∀ p ∈ S, ∀ q ∈ S, p ≠ q → p.1 ≠ q.1 ∧ p.2 ≠ q.2 ∧ |p.1 - q.1| ≠ |p.2 - q.2|}

/-- Lines 103-107 alone: a fresh solver with the bounding and the distinctness constraints. -/
def bounding_and_distinct (xs ys : List IntExpr) (queen_count : Nat) : solver :=
  let s : solver := ⟨[]⟩
  let s := set_board_size_limit s xs queen_count
  let s := set_board_size_limit s ys queen_count
  let s := set_values_distinct s xs
  set_values_distinct s ys

/-- An oracle that answers `unsat` to every check. -/
def unsat_oracle : z3_oracle where
  check := fun _ => .unsat
  get_model := fun _ _ => 0

/-- An oracle that answers `unknown` to every check. -/
def unknown_oracle : z3_oracle where
  check := fun _ => .unknown
  get_model := fun _ _ => 0

/-- A grid of `n` rows of `n` cells that shows `'Q'` exactly on the squares of `ps`. -/
def grid_shows (n : Nat) (board : List (List Char)) (ps : List (Int × Int)) : Prop :=
  board.length = n ∧ ∀ r, r < n → ∃ row, board[r]? = some row ∧ row.length = n ∧
    ∀ c, c < n → row[c]? = some (if ((c : Int) + 1, (r : Int) + 1) ∈ ps then 'Q' else '+')

/-- Soundness of an `unsat` answer on one assertion list: if `check()` answers `unsat`,
no model satisfies the list. -/
def unsat_sound_at (o : z3_oracle) (l : List BoolExpr) : Prop :=
  o.check l = .unsat → ∀ m, BoolExpr.evalAll m l = false

/-! # Theorems -/

/-! ## Folding lemmas -/

theorem foldl_push {α β : Type} (f : α → β) (l : List α) (init : List β) :
    l.foldl (fun acc a => acc ++ [f a]) init = init ++ l.map f := by
  induction l generalizing init with
  | nil => simp
  | cons a l ih => simp [ih]

theorem create_vector_eq (n : Nat) (name : String) :
    created_vector n name =
      (List.range n).map (fun i => IntExpr.int_const ((name ++ "_") ++ toString i)) := by
  simp [created_vector, foldl_push]

theorem create_vector_length (n : Nat) (name : String) :
    (created_vector n name).length = n := by
  simp [create_vector_eq]

theorem create_vector_getElem? (n : Nat) (name : String) (i : Nat) (hi : i < n) :
    (created_vector n name)[i]? =
      some (IntExpr.int_const ((name ++ "_") ++ toString i)) := by
  simp [create_vector_eq, List.getElem?_range hi]

theorem foldlM_add {α : Type} (g : α → BoolExpr) (f : solver → α → Option solver)
    (l : List α) (h : ∀ s, ∀ a ∈ l, f s a = some (s.add (g a))) (s : solver) :
    l.foldlM f s = some ⟨s.assertions ++ l.map g⟩ := by
  induction l generalizing s with
  | nil => simp
  | cons a l ih =>
    rw [List.foldlM_cons, h s a (List.mem_cons_self _ _)]
    simp only [Option.bind_eq_bind, Option.some_bind]
    rw [ih (fun s b hb => h s b (List.mem_cons_of_mem _ hb))]
    simp [solver.add]

theorem foldl_add {α : Type} (g : α → BoolExpr) (l : List α) (s : solver) :
    l.foldl (fun s a => s.add (g a)) s = ⟨s.assertions ++ l.map g⟩ := by
  induction l generalizing s with
  | nil => simp
  | cons a l ih =>
    rw [List.foldl_cons, ih]
    simp [solver.add]

/-- A fold whose every step appends a block of assertions appends all the blocks. -/
theorem foldlM_append {α : Type} (g : α → List BoolExpr) (f : solver → α → Option solver)
    (l : List α) (h : ∀ s, ∀ a ∈ l, f s a = some ⟨s.assertions ++ g a⟩) (s : solver) :
    l.foldlM f s = some ⟨s.assertions ++ l.flatMap g⟩ := by
  induction l generalizing s with
  | nil => simp
  | cons a l ih =>
    rw [List.foldlM_cons, h s a (List.mem_cons_self _ _)]
    simp only [Option.bind_eq_bind, Option.some_bind]
    rw [ih (fun s b hb => h s b (List.mem_cons_of_mem _ hb))]
    simp

/-! ## The constraint set in closed form -/

theorem queen_xs_eq (n : Nat) : queen_xs n = (List.range n).map xvar := by
  simp [queen_xs, create_vector_eq, xvar]

theorem queen_ys_eq (n : Nat) : queen_ys n = (List.range n).map yvar := by
  simp [queen_ys, create_vector_eq, yvar]

theorem xvars_getElem? (n i : Nat) (hi : i < n) : ((List.range n).map xvar)[i]? = some (xvar i) := by
  simp [List.getElem?_range hi]

theorem yvars_getElem? (n i : Nat) (hi : i < n) : ((List.range n).map yvar)[i]? = some (yvar i) := by
  simp [List.getElem?_range hi]

theorem set_board_size_limit_eq (s : solver) (xs : List IntExpr) (n : Nat) :
    set_board_size_limit s xs n = ⟨s.assertions ++ xs.map (bound_expr n)⟩ :=
  foldl_add (bound_expr n) xs s

theorem set_values_distinct_eq (s : solver) (xs : List IntExpr) :
    set_values_distinct s xs = ⟨s.assertions ++ [.distinct xs]⟩ := by
  have h : xs.foldl (fun t x => t ++ [x]) [] = xs := by
    rw [foldl_push (fun x => x)]
    simp
  simp [set_values_distinct, h, solver.add]

theorem queen_constraints_eq (n : Nat) : queen_constraints n = some ⟨constraint_list n⟩ := by
  unfold queen_constraints build_constraints
  simp only [queen_xs_eq, queen_ys_eq]
  have h1 : set_queens_order ⟨[]⟩ ((List.range n).map xvar) ((List.range n).map yvar) n =
      some ⟨(List.range' 1 (n - 1)).map (order_expr n)⟩ := by
    unfold set_queens_order
    rw [foldlM_add (order_expr n)]
    · simp
    · intro s i hi
      simp only [List.length_map, List.length_range, List.mem_range'_1] at hi
      rw [yvars_getElem? n (i - 1) (by omega), xvars_getElem? n (i - 1) (by omega),
        yvars_getElem? n i (by omega), xvars_getElem? n i (by omega)]
      rfl
  rw [h1]
  simp only [Option.bind_eq_bind, Option.some_bind]
  have h2 : ∀ s : solver, restrict_one_queen_on_diag s ((List.range n).map xvar)
      ((List.range n).map yvar) = some ⟨s.assertions ++
        (List.range n).flatMap (fun i => (List.range' (i + 1) (n - (i + 1))).map (diag_expr i))⟩ := by
    intro s
    unfold restrict_one_queen_on_diag
    simp only [List.length_map, List.length_range]
    apply foldlM_append
    intro s i hi
    apply foldlM_add
    intro s j hj
    simp only [List.mem_range, List.mem_range'_1] at hi hj
    rw [xvars_getElem? n i (by omega), yvars_getElem? n i (by omega),
      xvars_getElem? n j (by omega), yvars_getElem? n j (by omega)]
    rfl
  rw [h2]
  simp [set_values_distinct_eq, set_board_size_limit_eq, constraint_list]

/-! ## Meaning of the constraint set -/

theorem evalAll_iff (m : model) (l : List BoolExpr) :
    BoolExpr.evalAll m l = true ↔ ∀ f ∈ l, f.eval m = true := by
  induction l with
  | nil => simp [BoolExpr.evalAll]
  | cons a l ih => simp [BoolExpr.evalAll, ih]

theorem evalAll_append (m : model) (l₁ l₂ : List BoolExpr) :
    BoolExpr.evalAll m (l₁ ++ l₂) = (BoolExpr.evalAll m l₁ && BoolExpr.evalAll m l₂) := by
  induction l₁ with
  | nil => simp [BoolExpr.evalAll]
  | cons a l ih => simp [BoolExpr.evalAll, ih, Bool.and_assoc]

theorem distinct_vals_iff (l : List Int) : distinct_vals l = true ↔ l.Nodup := by
  induction l with
  | nil => simp [distinct_vals]
  | cons a l ih => simp [distinct_vals, ih]

theorem nodup_map_range_iff (n : Nat) (f : Nat → Int) :
    ((List.range n).map f).Nodup ↔ ∀ i j, i < n → j < n → i ≠ j → f i ≠ f j := by
  rw [List.nodup_map_iff_inj_on (List.nodup_range n)]
  constructor
  · intro h i j hi hj hij e
    exact hij (h i (List.mem_range.2 hi) j (List.mem_range.2 hj) e)
  · intro h i hi j hj e
    by_contra hij
    exact h i j (List.mem_range.1 hi) (List.mem_range.1 hj) hij e

theorem eval_abs (m : model) (a : IntExpr) : (IntExpr.abs a).eval m = |a.eval m| := by
  simp only [IntExpr.eval]
  split
  · rw [abs_of_nonneg]; assumption
  · rw [abs_of_neg]; omega

theorem eval_order_expr (m : model) (n i : Nat) :
    (order_expr n i).eval m = true ↔
      yval m (i - 1) * n + xval m (i - 1) < yval m i * n + xval m i := by
  simp [order_expr, BoolExpr.eval, IntExpr.eval, xval, yval]

theorem eval_bound_expr (m : model) (n : Nat) (e : IntExpr) :
    (bound_expr n e).eval m = true ↔ 1 ≤ e.eval m ∧ e.eval m ≤ n := by
  simp [bound_expr, BoolExpr.eval, IntExpr.eval]

theorem eval_diag_expr (m : model) (i j : Nat) :
    (diag_expr i j).eval m = true ↔ |xval m j - xval m i| ≠ |yval m j - yval m i| := by
  simp only [diag_expr, get_queens_on_diag_expr, BoolExpr.eval, eval_abs]
  simp [IntExpr.eval, xval, yval]

theorem eval_distinct_x (m : model) (n : Nat) :
    (BoolExpr.distinct ((List.range n).map xvar)).eval m = true ↔
      ∀ i j, i < n → j < n → i ≠ j → xval m i ≠ xval m j := by
  simp only [BoolExpr.eval, distinct_vals_iff, List.map_map]
  exact nodup_map_range_iff n _

theorem eval_distinct_y (m : model) (n : Nat) :
    (BoolExpr.distinct ((List.range n).map yvar)).eval m = true ↔
      ∀ i j, i < n → j < n → i ≠ j → yval m i ≠ yval m j := by
  simp only [BoolExpr.eval, distinct_vals_iff, List.map_map]
  exact nodup_map_range_iff n _

/-- A model satisfies the constraint set exactly when the columns and rows it gives to the
queens satisfy the four constraint families. -/
theorem holds_constraint_list (n : Nat) (m : model) :
    BoolExpr.evalAll m (constraint_list n) = true ↔ placement_ok n (xval m) (yval m) := by
  simp only [constraint_list, evalAll_append, Bool.and_eq_true, evalAll_iff, List.mem_map,
    List.mem_range, List.mem_range'_1, List.mem_singleton, List.mem_flatMap]
  constructor
  · rintro ⟨⟨⟨⟨⟨ho, hxb⟩, hyb⟩, hxd⟩, hyd⟩, hdg⟩
    refine ⟨?_, ?_, ?_, ?_, ?_, ?_⟩
    · intro i h1 h2
      exact (eval_order_expr m n i).1 (ho _ ⟨i, ⟨h1, by omega⟩, rfl⟩)
    · intro i hi
      exact (eval_bound_expr m n (xvar i)).1 (hxb _ ⟨xvar i, ⟨i, hi, rfl⟩, rfl⟩)
    · intro i hi
      exact (eval_bound_expr m n (yvar i)).1 (hyb _ ⟨yvar i, ⟨i, hi, rfl⟩, rfl⟩)
    · exact (eval_distinct_x m n).1 (hxd _ rfl)
    · exact (eval_distinct_y m n).1 (hyd _ rfl)
    · intro i j hij hj
      exact (eval_diag_expr m i j).1 (hdg _ ⟨i, by omega, j, ⟨by omega, by omega⟩, rfl⟩)
  · intro h
    refine ⟨⟨⟨⟨⟨?_, ?_⟩, ?_⟩, ?_⟩, ?_⟩, ?_⟩
    · rintro f ⟨i, ⟨h1, h2⟩, rfl⟩
      exact (eval_order_expr m n i).2 (h.order i h1 (by omega))
    · rintro f ⟨e, ⟨i, hi, rfl⟩, rfl⟩
      exact (eval_bound_expr m n (xvar i)).2 (h.xbound i hi)
    · rintro f ⟨e, ⟨i, hi, rfl⟩, rfl⟩
      exact (eval_bound_expr m n (yvar i)).2 (h.ybound i hi)
    · rintro f rfl
      exact (eval_distinct_x m n).2 h.xdistinct
    · rintro f rfl
      exact (eval_distinct_y m n).2 h.ydistinct
    · rintro f ⟨i, hi, j, ⟨h1, h2⟩, rfl⟩
      exact (eval_diag_expr m i j).2 (h.diag i j (by omega) (by omega))

theorem value_at_xs (m : model) (n i : Nat) (hi : i < n) :
    value_at m (queen_xs n) i = xval m i := by
  simp [value_at, queen_xs_eq, List.getElem?_range hi, xval]

theorem value_at_ys (m : model) (n i : Nat) (hi : i < n) :
    value_at m (queen_ys n) i = yval m i := by
  simp [value_at, queen_ys_eq, List.getElem?_range hi, yval]

/-- Satisfaction of the solver made by `build_constraints`. -/
theorem holds_build (n : Nat) (s : solver) (hs : queen_constraints n = some s) (m : model) :
    s.holds m = true ↔ placement_ok n (xval m) (yval m) := by
  rw [queen_constraints_eq] at hs
  cases hs
  exact holds_constraint_list n m

/-- C1 (validity): a model of the constraint set built by `queen_solve(n)` gives the queens
pairwise distinct rows, pairwise distinct columns, and no two queens a common diagonal
(`|x_i - x_j| ≠ |y_i - y_j|` for `i ≠ j`). -/
theorem solutions_valid (n : Nat) (s : solver) (hs : queen_constraints n = some s)
    (m : model) (hm : s.holds m = true) :
    (∀ i j, i < n → j < n → i ≠ j →
        value_at m (queen_ys n) i ≠ value_at m (queen_ys n) j) ∧
    (∀ i j, i < n → j < n → i ≠ j →
        value_at m (queen_xs n) i ≠ value_at m (queen_xs n) j) ∧
    (∀ i j, i < n → j < n → i ≠ j →
        |value_at m (queen_xs n) i - value_at m (queen_xs n) j| ≠
          |value_at m (queen_ys n) i - value_at m (queen_ys n) j|) := by
  have h := (holds_build n s hs m).1 hm
  refine ⟨?_, ?_, ?_⟩
  · intro i j hi hj hij
    rw [value_at_ys m n i hi, value_at_ys m n j hj]
    exact h.ydistinct i j hi hj hij
  · intro i j hi hj hij
    rw [value_at_xs m n i hi, value_at_xs m n j hj]
    exact h.xdistinct i j hi hj hij
  · intro i j hi hj hij
    rw [value_at_xs m n i hi, value_at_xs m n j hj, value_at_ys m n i hi, value_at_ys m n j hj]
    rcases Nat.lt_or_gt_of_ne hij with hlt | hgt
    · rw [abs_sub_comm (xval m i), abs_sub_comm (yval m i)]
      exact h.diag i j hlt hj
    · exact h.diag j i hgt hi

/-- Witness of `solutions_valid`: the sample model on the board of size four. -/
theorem solutions_valid_witness :
    queen_constraints 4 = some ⟨constraint_list 4⟩ ∧
    (solver.mk (constraint_list 4)).holds sample_model_4 = true ∧
    value_at sample_model_4 (queen_ys 4) 0 ≠ value_at sample_model_4 (queen_ys 4) 1 :=
  ⟨queen_constraints_eq 4, by decide,
    (solutions_valid 4 ⟨constraint_list 4⟩ (queen_constraints_eq 4) sample_model_4
      (by decide)).1 0 1 (by decide) (by decide) (by decide)⟩

/-! ## Variable names -/

theorem digit_value_digitChar (d : Nat) (hd : d < 10) : digit_value (Nat.digitChar d) = d := by
  interval_cases d <;> rfl

theorem decode_toDigitsCore (fuel n : Nat) (ds : List Char) (h : n < fuel) :
    decode_digits 0 (Nat.toDigitsCore 10 fuel n ds) = decode_digits n ds := by
  induction fuel generalizing n ds with
  | zero => omega
  | succ fuel ih =>
    have hd : digit_value (Nat.digitChar (n % 10)) = n % 10 :=
      digit_value_digitChar _ (Nat.mod_lt _ (by decide))
    simp only [Nat.toDigitsCore]
    split
    · rename_i h0
      have : n % 10 = n := by omega
      simp only [decode_digits, List.foldl_cons, hd, Nat.zero_mul, Nat.zero_add]
      rw [this]
    · rename_i h0
      rw [ih (n / 10) _ (by omega)]
      have : n / 10 * 10 + n % 10 = n := by omega
      simp only [decode_digits, List.foldl_cons, hd]
      rw [this]

theorem decode_toString (i : Nat) : decode_digits 0 (toString i).data = i := by
  show decode_digits 0 (Nat.toDigitsCore 10 (i + 1) i []) = i
  rw [decode_toDigitsCore _ _ _ (by omega)]
  simp [decode_digits]

theorem xval_model_of (X Y : Nat → Int) (i : Nat) : xval (model_of X Y) i = X i := by
  have h : (("x" ++ "_") ++ toString i).data = 'x' :: '_' :: (toString i).data := by
    rw [String.data_append]; rfl
  simp only [xval, xvar, IntExpr.eval, model_of, h, decode_toString]

theorem yval_model_of (X Y : Nat → Int) (i : Nat) : yval (model_of X Y) i = Y i := by
  have h : (("y" ++ "_") ++ toString i).data = 'y' :: '_' :: (toString i).data := by
    rw [String.data_append]; rfl
  simp only [yval, yvar, IntExpr.eval, model_of, h, decode_toString]

/-! ## The rows are forced -/

theorem rows_increasing {n : Nat} {X Y : Nat → Int} (h : placement_ok n X Y) (i : Nat)
    (h1 : 1 ≤ i) (h2 : i < n) : Y (i - 1) < Y i := by
  by_contra hge
  have hne : Y (i - 1) ≠ Y i := h.ydistinct (i - 1) i (by omega) h2 (by omega)
  have hgt : Y i + 1 ≤ Y (i - 1) := by omega
  have ho := h.order i h1 h2
  have hx1 := h.xbound (i - 1) (by omega)
  have hx2 := h.xbound i h2
  have hmul : (Y i + 1) * (n : Int) ≤ Y (i - 1) * n :=
    mul_le_mul_of_nonneg_right hgt (by omega)
  have hexp : (Y i + 1) * (n : Int) = Y i * n + n := by ring
  omega

theorem row_lower {n : Nat} {X Y : Nat → Int} (h : placement_ok n X Y) (i : Nat) (hi : i < n) :
    (i : Int) + 1 ≤ Y i := by
  induction i with
  | zero => have := (h.ybound 0 hi).1; omega
  | succ i ih =>
    have h1 := ih (by omega)
    have h2 := rows_increasing h (i + 1) (by omega) hi
    simp only [Nat.add_sub_cancel] at h2
    push_cast
    omega

theorem row_upper {n : Nat} {X Y : Nat → Int} (h : placement_ok n X Y) (k : Nat) (hk : k < n) :
    Y (n - 1 - k) ≤ (n : Int) - k := by
  induction k with
  | zero => have := (h.ybound (n - 1) (by omega)).2; simpa using this
  | succ k ih =>
    have h1 := ih (by omega)
    have h2 := rows_increasing h (n - 1 - k) (by omega) (by omega)
    have e : n - 1 - k - 1 = n - 1 - (k + 1) := by omega
    rw [e] at h2
    push_cast
    omega

/-- Ordering, bounding and distinctness of the rows leave queen `i` only row `i + 1`. -/
theorem row_forced {n : Nat} {X Y : Nat → Int} (h : placement_ok n X Y) (i : Nat) (hi : i < n) :
    Y i = (i : Int) + 1 := by
  have h1 := row_lower h i hi
  have h2 := row_upper h (n - 1 - i) (by omega)
  have e : n - 1 - (n - 1 - i) = i := by omega
  rw [e] at h2
  have e2 : ((n - 1 - i : Nat) : Int) = (n : Int) - 1 - i := by omega
  omega

theorem placement_ok_iff (n : Nat) (X Y : Nat → Int) :
    placement_ok n X Y ↔ (∀ i, i < n → Y i = (i : Int) + 1) ∧ columns_ok n X := by
  constructor
  · intro h
    refine ⟨fun i hi => row_forced h i hi, h.xbound, ?_, ?_⟩
    · intro i j hij hj
      exact h.xdistinct i j (by omega) hj (by omega)
    · intro i j hij hj
      have := h.diag i j hij hj
      rw [row_forced h i (by omega), row_forced h j hj] at this
      have e : |((j : Int) + 1) - (i + 1)| = (j : Int) - i := by
        rw [abs_of_nonneg] <;> omega
      rwa [e] at this
  · rintro ⟨hy, hc⟩
    refine ⟨?_, hc.bound, ?_, ?_, ?_, ?_⟩
    · intro i h1 h2
      rw [hy (i - 1) (by omega), hy i h2]
      have hx1 := hc.bound (i - 1) (by omega)
      have hx2 := hc.bound i h2
      have e : ((i - 1 : Nat) : Int) + 1 = i := by omega
      rw [e]
      have : ((i : Int) + 1) * n = i * n + n := by ring
      omega
    · intro i hi
      rw [hy i hi]
      omega
    · intro i j hi hj hij
      rcases Nat.lt_or_gt_of_ne hij with hlt | hgt
      · exact hc.distinct i j hlt hj
      · exact (hc.distinct j i hgt hi).symm
    · intro i j hi hj hij
      rw [hy i hi, hy j hj]
      omega
    · intro i j hij hj
      rw [hy i (by omega), hy j hj]
      have e : |((j : Int) + 1) - (i + 1)| = (j : Int) - i := by
        rw [abs_of_nonneg] <;> omega
      rw [e]
      exact hc.diag i j hij hj

/-! ## A verified enumeration of the placements -/

theorem safe_against_desc (c d : Nat) (X : Nat → Nat) (k : Nat) :
    safe_against c d (desc X k) = true ↔
      ∀ i, i < k → c ≠ X i ∧ c + (d + (k - 1 - i)) ≠ X i ∧ X i + (d + (k - 1 - i)) ≠ c := by
  induction k generalizing d with
  | zero => simp [desc, safe_against]
  | succ k ih =>
    simp only [desc, safe_against, Bool.and_eq_true, bne_iff_ne, ne_eq, ih]
    constructor
    · rintro ⟨⟨⟨h1, h2⟩, h3⟩, h4⟩ i hi
      rcases Nat.lt_succ_iff_lt_or_eq.1 hi with hlt | rfl
      · have := h4 i hlt
        have e : d + 1 + (k - 1 - i) = d + (k + 1 - 1 - i) := by omega
        rw [e] at this
        exact this
      · simp only [Nat.add_sub_cancel, Nat.sub_self, Nat.add_zero]
        exact ⟨h1, h2, h3⟩
    · intro h
      refine ⟨⟨⟨?_, ?_⟩, ?_⟩, ?_⟩
      · exact (h k (by omega)).1
      · have := (h k (by omega)).2.1
        simpa using this
      · have := (h k (by omega)).2.2
        simpa using this
      · intro i hi
        have := h i (by omega)
        have e : d + (k + 1 - 1 - i) = d + 1 + (k - 1 - i) := by omega
        rw [e] at this
        exact this

theorem mem_extend_rows (n : Nat) (partials : List (List Nat)) (r : List Nat) :
    r ∈ extend_rows n partials ↔
      ∃ qs ∈ partials, ∃ c, (1 ≤ c ∧ c ≤ n) ∧ safe_against c 1 qs = true ∧ r = c :: qs := by
  simp only [extend_rows, List.mem_flatMap, List.mem_map, List.mem_filter, List.mem_range'_1]
  constructor
  · rintro ⟨qs, hqs, c, ⟨⟨h1, h2⟩, h3⟩, rfl⟩
    exact ⟨qs, hqs, c, ⟨h1, by omega⟩, h3, rfl⟩
  · rintro ⟨qs, hqs, c, ⟨h1, h2⟩, h3, rfl⟩
    exact ⟨qs, hqs, c, ⟨⟨h1, by omega⟩, h3⟩, rfl⟩

theorem length_of_mem_queens (n k : Nat) (r : List Nat) (h : r ∈ queens n k) : r.length = k := by
  induction k generalizing r with
  | zero => simp [queens] at h; simp [h]
  | succ k ih =>
    rw [queens, mem_extend_rows] at h
    obtain ⟨qs, hqs, c, -, -, rfl⟩ := h
    simp [ih qs hqs]

theorem desc_mem_queens (n k : Nat) (X : Nat → Nat) :
    desc X k ∈ queens n k ↔ cols_ok n k X := by
  induction k with
  | zero => simp [desc, queens, cols_ok]
  | succ k ih =>
    rw [queens, mem_extend_rows]
    constructor
    · rintro ⟨qs, hqs, c, hc, hsafe, heq⟩
      simp only [desc, List.cons.injEq] at heq
      obtain ⟨rfl, rfl⟩ := heq
      have hk := ih.1 hqs
      rw [safe_against_desc] at hsafe
      refine ⟨?_, ?_⟩
      · intro i hi
        rcases Nat.lt_succ_iff_lt_or_eq.1 hi with hlt | rfl
        · exact hk.1 i hlt
        · exact hc
      · intro i j hij hj
        rcases Nat.lt_succ_iff_lt_or_eq.1 hj with hlt | rfl
        · exact hk.2 i j hij hlt
        · have := hsafe i hij
          have e : 1 + (j - 1 - i) = j - i := by omega
          rw [e] at this
          exact this
    · intro h
      have hk : cols_ok n k X :=
        ⟨fun i hi => h.1 i (by omega), fun i j hij hj => h.2 i j hij (by omega)⟩
      refine ⟨desc X k, ih.2 hk, X k, h.1 k (by omega), ?_, rfl⟩
      rw [safe_against_desc]
      intro i hi
      have := h.2 i k hi (by omega)
      have e : 1 + (k - 1 - i) = k - i := by omega
      rw [e]
      exact this

theorem desc_reverse (X : Nat → Nat) (k : Nat) : (desc X k).reverse = (List.range k).map X := by
  induction k with
  | zero => simp [desc]
  | succ k ih => simp [desc, ih, List.range_succ]

theorem desc_length (X : Nat → Nat) (k : Nat) : (desc X k).length = k := by
  induction k with
  | zero => simp [desc]
  | succ k ih => simp [desc, ih]

theorem eq_desc (r : List Nat) : r = desc (fun i => r.reverse.getD i 0) r.length := by
  apply List.reverse_injective
  rw [desc_reverse]
  apply List.ext_getElem
  · simp
  · intro i h1 h2
    simp only [List.length_reverse] at h1
    simp [List.getD_eq_getElem?_getD, List.getElem?_eq_getElem, h1]

theorem placement_of_desc (X : Nat → Nat) (k : Nat) :
    placement_of (desc X k) = (List.range k).map (fun i => ((X i : Int), (i : Int) + 1)) := by
  rw [placement_of, desc_reverse, desc_length]
  apply List.ext_getElem
  · simp
  · intro i h1 h2
    simp

theorem placement_of_injective : Function.Injective placement_of := by
  intro r r' h
  have key : ∀ r : List Nat, (placement_of r).map (fun p => p.1.toNat) = r.reverse := by
    intro r
    rw [placement_of]
    apply List.ext_getElem
    · simp
    · intro i h1 h2
      simp
  apply List.reverse_injective
  rw [← key r, ← key r', h]

theorem cols_ok_iff (n : Nat) (X : Nat → Nat) :
    cols_ok n n X ↔ columns_ok n (fun i => (X i : Int)) := by
  constructor
  · rintro ⟨hb, hd⟩
    refine ⟨?_, ?_, ?_⟩
    · intro i hi
      have := hb i hi
      omega
    · intro i j hij hj
      have := (hd i j hij hj).1
      omega
    · intro i j hij hj
      have := hd i j hij hj
      intro e
      rcases abs_cases ((X j : Int) - X i) with ⟨h1, _⟩ | ⟨h1, _⟩ <;> omega
  · intro h
    refine ⟨?_, ?_⟩
    · intro i hi
      have := h.bound i hi
      omega
    · intro i j hij hj
      have h1 := h.distinct i j hij hj
      have h2 := h.diag i j hij hj
      refine ⟨by omega, ?_, ?_⟩
      · intro e
        apply h2
        rw [abs_of_nonpos] <;> omega
      · intro e
        apply h2
        rw [abs_of_nonneg] <;> omega

theorem columns_ok_congr (n : Nat) (X X' : Nat → Int) (h : ∀ i, i < n → X i = X' i)
    (hX : columns_ok n X) : columns_ok n X' := by
  refine ⟨?_, ?_, ?_⟩
  · intro i hi
    rw [← h i hi]
    exact hX.bound i hi
  · intro i j hij hj
    rw [← h i (by omega), ← h j hj]
    exact hX.distinct i j hij hj
  · intro i j hij hj
    rw [← h i (by omega), ← h j hj]
    exact hX.diag i j hij hj

theorem model_values_queen (m : model) (n : Nat) :
    model_values m (queen_xs n) (queen_ys n) =
      (List.range n).map (fun i => (xval m i, yval m i)) := by
  have hl : (queen_xs n).length = n := by simp [queen_xs_eq]
  rw [model_values, hl]
  apply List.map_congr_left
  intro i hi
  rw [List.mem_range] at hi
  rw [value_at_xs m n i hi, value_at_ys m n i hi]

theorem model_values_eq_iff (m m' : model) (n : Nat) :
    model_values m (queen_xs n) (queen_ys n) = model_values m' (queen_xs n) (queen_ys n) ↔
      ∀ i, i < n → xval m i = xval m' i ∧ yval m i = yval m' i := by
  rw [model_values_queen, model_values_queen]
  constructor
  · intro h i hi
    have := List.map_inj_left.1 h i (List.mem_range.2 hi)
    simpa using this
  · intro h
    apply List.map_congr_left
    intro i hi
    rw [List.mem_range] at hi
    rw [(h i hi).1, (h i hi).2]

/-- Every model of the constraint set is one of the enumerated placements. -/
theorem values_mem_queens (n : Nat) (m : model)
    (hm : BoolExpr.evalAll m (constraint_list n) = true) :
    ∃ r ∈ queens n n, model_values m (queen_xs n) (queen_ys n) = placement_of r := by
  obtain ⟨hy, hc⟩ := (placement_ok_iff n _ _).1 ((holds_constraint_list n m).1 hm)
  have hX : ∀ i, i < n → xval m i = (((xval m i).toNat : Nat) : Int) := by
    intro i hi
    have := hc.bound i hi
    omega
  refine ⟨desc (fun i => (xval m i).toNat) n, ?_, ?_⟩
  · rw [desc_mem_queens, cols_ok_iff]
    exact columns_ok_congr n _ _ hX hc
  · rw [model_values_queen, placement_of_desc]
    apply List.map_congr_left
    intro i hi
    rw [List.mem_range] at hi
    rw [hy i hi, ← hX i hi]

/-- Every enumerated placement is the assignment of a model of the constraint set. -/
theorem queens_mem_values (n : Nat) (r : List Nat) (hr : r ∈ queens n n) :
    ∃ m, BoolExpr.evalAll m (constraint_list n) = true ∧
      model_values m (queen_xs n) (queen_ys n) = placement_of r := by
  have hlen := length_of_mem_queens n n r hr
  have hdesc := eq_desc r
  rw [hlen] at hdesc
  set Xn : Nat → Nat := fun i => r.reverse.getD i 0 with hXn
  rw [hdesc] at hr ⊢
  have hc := (cols_ok_iff n Xn).1 ((desc_mem_queens n n Xn).1 hr)
  refine ⟨model_of (fun i => (Xn i : Int)) (fun i => (i : Int) + 1), ?_, ?_⟩
  · rw [holds_constraint_list, placement_ok_iff]
    refine ⟨fun i _ => yval_model_of _ _ i, ?_⟩
    exact columns_ok_congr n _ _ (fun i _ => (xval_model_of _ _ i).symm) hc
  · rw [model_values_queen, placement_of_desc]
    apply List.map_congr_left
    intro i _
    rw [xval_model_of, yval_model_of]

theorem satisfying_assignments_eq (n : Nat) :
    satisfying_assignments n = {a | a ∈ (queens n n).map placement_of} := by
  ext a
  simp only [satisfying_assignments, Set.mem_setOf_eq, List.mem_map]
  constructor
  · rintro ⟨s, m, hs, hm, rfl⟩
    rw [queen_constraints_eq] at hs
    cases hs
    obtain ⟨r, hr, e⟩ := values_mem_queens n m hm
    exact ⟨r, hr, e.symm⟩
  · rintro ⟨r, hr, rfl⟩
    obtain ⟨m, hm, e⟩ := queens_mem_values n r hr
    exact ⟨⟨constraint_list n⟩, m, queen_constraints_eq n, hm, e⟩

theorem queens_nodup (n k : Nat) : (queens n k).Nodup := by
  induction k with
  | zero => simp [queens]
  | succ k ih =>
    rw [queens, extend_rows, List.nodup_flatMap]
    refine ⟨?_, ?_⟩
    · intro qs _
      apply List.Nodup.map
      · intro c c' h
        simpa using h
      · exact (List.nodup_range' 1 n).filter _
    · apply List.Pairwise.imp _ ih
      intro qs qs' hne
      simp only [Function.onFun, List.disjoint_left, List.mem_map, List.mem_filter]
      rintro r ⟨c, _, rfl⟩ ⟨c', _, h⟩
      simp only [List.cons.injEq] at h
      exact hne h.2.symm

/-- The number of satisfying assignments is the length of the enumeration. -/
theorem satisfying_assignments_ncard (n : Nat) :
    (satisfying_assignments n).ncard = (queens n n).length := by
  have hnd : ((queens n n).map placement_of).Nodup :=
    (queens_nodup n n).map placement_of_injective
  have e : satisfying_assignments n = ↑((queens n n).map placement_of).toFinset := by
    rw [satisfying_assignments_eq]
    ext a
    simp
  rw [e, Set.ncard_coe_Finset, List.toFinset_card_of_nodup hnd, List.length_map]

/-! ## The functions called in the loop body -/

theorem foldlM_push_some {α β : Type} (h : α → β) (f : List β → α → Option (List β))
    (l : List α) (hf : ∀ acc, ∀ a ∈ l, f acc a = some (acc ++ [h a])) (init : List β) :
    l.foldlM f init = some (init ++ l.map h) := by
  induction l generalizing init with
  | nil => simp
  | cons a l ih =>
    rw [List.foldlM_cons, hf init a (List.mem_cons_self _ _)]
    simp only [Option.bind_eq_bind, Option.some_bind]
    rw [ih (fun acc b hb => hf acc b (List.mem_cons_of_mem _ hb))]
    simp

theorem foldlM_push_inv {α β : Type} (g : α → Option β) (f : List β → α → Option (List β))
    (l : List α) (hf : ∀ acc, ∀ a ∈ l, f acc a = (g a).map (fun b => acc ++ [b]))
    (init r : List β) (hr : l.foldlM f init = some r) :
    ∃ bs, r = init ++ bs ∧ l.map g = bs.map some := by
  induction l generalizing init with
  | nil =>
    simp only [List.foldlM_nil, Option.pure_def, Option.some.injEq] at hr
    exact ⟨[], by simp [hr], by simp⟩
  | cons a l ih =>
    rw [List.foldlM_cons, hf init a (List.mem_cons_self _ _)] at hr
    cases hg : g a with
    | none => simp [hg] at hr
    | some b =>
      simp only [hg, Option.map_some', Option.bind_eq_bind, Option.some_bind] at hr
      obtain ⟨bs, h1, h2⟩ := ih (fun acc b hb => hf acc b (List.mem_cons_of_mem _ hb)) _ hr
      exact ⟨b :: bs, by simp [h1], by simp [h2, hg]⟩

theorem get_numeral_int_model_eval (m : model) (e : IntExpr) :
    get_numeral_int (model_eval m e) =
      if in_int_range (e.eval m) then some (e.eval m) else none := by
  simp only [get_numeral_int, model_eval, in_int_range]

/-- With values that fit an `int`, `get_queens_positions` returns the values of the model. -/
theorem get_queens_positions_eq (n : Nat) (m : model)
    (h : ∀ i, i < n → in_int_range (xval m i) ∧ in_int_range (yval m i)) :
    get_queens_positions m (queen_xs n) (queen_ys n) =
      some (model_values m (queen_xs n) (queen_ys n)) := by
  rw [model_values_queen, get_queens_positions]
  have hl : (queen_xs n).length = n := by simp [queen_xs_eq]
  rw [hl, foldlM_push_some (fun i => (xval m i, yval m i))]
  · simp
  · intro acc i hi
    rw [List.mem_range] at hi
    rw [queen_xs_eq, queen_ys_eq, xvars_getElem? n i hi, yvars_getElem? n i hi]
    simp only [Option.bind_eq_bind, Option.some_bind, get_numeral_int_model_eval]
    have h1 : in_int_range ((xvar i).eval m) := (h i hi).1
    have h2 : in_int_range ((yvar i).eval m) := (h i hi).2
    simp [h1, h2, xval, yval]

/-- What `get_queens_positions` returns is always the values of the model. -/
theorem get_queens_positions_some (n : Nat) (m : model) (ps : List (Int × Int))
    (h : get_queens_positions m (queen_xs n) (queen_ys n) = some ps) :
    ps = model_values m (queen_xs n) (queen_ys n) := by
  have hl : (queen_xs n).length = n := by simp [queen_xs_eq]
  rw [get_queens_positions, hl] at h
  obtain ⟨bs, h1, h2⟩ := foldlM_push_inv
    (fun i => if in_int_range (xval m i) ∧ in_int_range (yval m i)
      then some (xval m i, yval m i) else none) _ (List.range n) (by
      intro acc i hi
      rw [List.mem_range] at hi
      rw [queen_xs_eq, queen_ys_eq, xvars_getElem? n i hi, yvars_getElem? n i hi]
      simp only [Option.bind_eq_bind, Option.some_bind, get_numeral_int_model_eval]
      by_cases h1 : in_int_range ((xvar i).eval m) <;>
        by_cases h2 : in_int_range ((yvar i).eval m) <;>
        simp [h1, h2, xval, yval]) [] ps h
  rw [model_values_queen]
  simp only [List.nil_append] at h1
  subst h1
  apply List.ext_getElem
  · have := congrArg List.length h2
    simpa using this.symm
  · intro i hi1 hi2
    have hi : i < n := by simpa using hi2
    have := congrArg (fun l => l[i]?) h2
    simp only [List.getElem?_map, List.getElem?_range hi, Option.map_some',
      List.getElem?_eq_getElem hi1] at this
    split at this
    · simp only [Option.some.injEq] at this
      simp [← this]
    · simp at this

theorem print_board_grid_isSome (n : Nat) (positions : List (Int × Int))
    (h : ∀ p ∈ positions, 1 ≤ p.2 ∧ p.2 ≤ n ∧ 1 ≤ p.1 ∧ p.1 ≤ n) :
    (print_board_grid positions n).isSome = true := by
  unfold print_board_grid
  generalize List.replicate n (List.replicate n '+') = board
  induction positions generalizing board with
  | nil => simp
  | cons p ps ih =>
    rw [List.foldlM_cons, if_pos (h p (List.mem_cons_self _ _))]
    simp only [Option.bind_eq_bind, Option.some_bind]
    exact ih (fun q hq => h q (List.mem_cons_of_mem _ hq)) _

theorem print_board_isSome (n : Nat) (positions : List (Int × Int))
    (h : ∀ p ∈ positions, 1 ≤ p.2 ∧ p.2 ≤ n ∧ 1 ≤ p.1 ∧ p.1 ≤ n) :
    (print_board positions n).isSome = true := by
  simp [print_board, print_board_grid_isSome n positions h]

theorem add_solution_to_solver_eq (n : Nat) (s : solver) (m : model) :
    add_solution_to_solver s m (queen_xs n) (queen_ys n) =
      some ⟨s.assertions ++ [block_expr n m]⟩ := by
  have hl : (queen_xs n).length = n := by simp [queen_xs_eq]
  rw [add_solution_to_solver, hl, foldlM_push_some (fun i =>
    BoolExpr.and (.eq (xvar i) (model_eval m (xvar i))) (.eq (yvar i) (model_eval m (yvar i))))]
  · simp [solver.add, block_expr]
  · intro acc i hi
    rw [List.mem_range] at hi
    rw [queen_xs_eq, queen_ys_eq, xvars_getElem? n i hi, yvars_getElem? n i hi]
    rfl

/-- A model satisfies the blocking clause of `m` exactly when it differs from `m` in the
value of some variable. -/
theorem eval_block_expr (n : Nat) (m m' : model) :
    (block_expr n m).eval m' = true ↔
      model_values m' (queen_xs n) (queen_ys n) ≠ model_values m (queen_xs n) (queen_ys n) := by
  rw [Ne, model_values_eq_iff]
  simp only [block_expr, BoolExpr.eval, Bool.not_eq_true', ← Bool.not_eq_true, evalAll_iff,
    List.mem_map, List.mem_range]
  constructor
  · intro h1 h2
    apply h1
    rintro f ⟨i, hi, rfl⟩
    have := h2 i hi
    simpa [BoolExpr.eval, model_eval, IntExpr.eval, xval, yval, xvar, yvar] using this
  · intro h1 h2
    apply h1
    intro i hi
    have := h2 _ ⟨i, hi, rfl⟩
    simpa [BoolExpr.eval, model_eval, IntExpr.eval, xval, yval, xvar, yvar] using this

/-! ## The enumeration loop -/

theorem int_wrap_succ (k : Int) : int_wrap (int_wrap k + 1) = int_wrap (k + 1) := by
  unfold int_wrap
  omega

theorem int_wrap_small (k : Int) (h0 : 0 ≤ k) (h1 : k ≤ 2147483647) : int_wrap k = k := by
  unfold int_wrap
  omega

theorem enum_loop_not_sat (o : z3_oracle) (xs ys : List IntExpr) (n fuel : Nat)
    (st : loop_state) (h : o.check st.solver.assertions ≠ .sat) :
    enum_loop o xs ys n (fuel + 1) st = .finished st := by
  rw [enum_loop, if_neg h]

theorem holds_blocks_iff (n : Nat) (ms : List model) (m : model) :
    BoolExpr.evalAll m (constraint_list n ++ ms.map (block_expr n)) = true ↔
      BoolExpr.evalAll m (constraint_list n) = true ∧
      ∀ m' ∈ ms, model_values m (queen_xs n) (queen_ys n) ≠
        model_values m' (queen_xs n) (queen_ys n) := by
  rw [evalAll_append, Bool.and_eq_true, evalAll_iff m (ms.map (block_expr n))]
  simp only [List.mem_map, forall_exists_index, and_imp, forall_apply_eq_imp_iff₂,
    eval_block_expr]

theorem values_bounds (n : Nat) (m : model)
    (hm : BoolExpr.evalAll m (constraint_list n) = true) (p : Int × Int)
    (hp : p ∈ model_values m (queen_xs n) (queen_ys n)) :
    1 ≤ p.2 ∧ p.2 ≤ n ∧ 1 ≤ p.1 ∧ p.1 ≤ n := by
  have h := (holds_constraint_list n m).1 hm
  rw [model_values_queen, List.mem_map] at hp
  obtain ⟨i, hi, rfl⟩ := hp
  rw [List.mem_range] at hi
  exact ⟨(h.ybound i hi).1, (h.ybound i hi).2, (h.xbound i hi).1, (h.xbound i hi).2⟩

/-- One turn of the loop from a state that satisfies the invariant, when `check()` answers
`sat`: the body runs without a fault and the invariant holds again. -/
theorem enum_loop_sat (o : z3_oracle) (ho : oracle_sound o) (n : Nat) (hn : n ≤ 2147483647)
    (fuel : Nat) (st : loop_state) (hinv : loop_inv n st)
    (h : o.check st.solver.assertions = .sat) :
    ∃ st', enum_loop o (queen_xs n) (queen_ys n) n (fuel + 1) st =
        enum_loop o (queen_xs n) (queen_ys n) n fuel st' ∧
      loop_inv n st' ∧ st'.models = st.models ++ [o.get_model st.solver.assertions] := by
  obtain ⟨hsolver, hmodels, hnodup, hcount⟩ := hinv
  have hm := ho _ h
  set m := o.get_model st.solver.assertions with hmdef
  rw [hsolver, holds_blocks_iff] at hm
  obtain ⟨hbase, hdiff⟩ := hm
  have hb := values_bounds n m hbase
  have hpos : get_queens_positions m (queen_xs n) (queen_ys n) =
      some (model_values m (queen_xs n) (queen_ys n)) := by
    apply get_queens_positions_eq
    intro i hi
    have hp := (holds_constraint_list n m).1 hbase
    have h1 := hp.xbound i hi
    have h2 := hp.ybound i hi
    have hn' : (n : Int) ≤ 2147483647 := by exact_mod_cast hn
    exact ⟨⟨by omega, by omega⟩, ⟨by omega, by omega⟩⟩
  obtain ⟨text, htext⟩ := Option.isSome_iff_exists.1 (print_board_isSome n _ hb)
  refine ⟨{ solver := ⟨st.solver.assertions ++ [block_expr n m]⟩
            solutions_count := int_wrap (st.solutions_count + 1)
            stdout := st.stdout ++ "\n" ++ text
            models := st.models ++ [m] }, ?_, ?_, rfl⟩
  · rw [enum_loop, if_pos h]
    simp only [← hmdef, hpos, htext, add_solution_to_solver_eq]
  · refine ⟨?_, ?_, ?_, ?_⟩
    · simp [hsolver]
    · intro m' hm'
      rcases List.mem_append.1 hm' with h1 | h1
      · exact hmodels m' h1
      · rw [List.mem_singleton] at h1
        rw [h1]
        exact hbase
    · simp only [List.map_append, List.map_cons, List.map_nil]
      rw [List.nodup_append]
      refine ⟨hnodup, List.nodup_singleton _, ?_⟩
      intro a ha hb'
      rw [List.mem_singleton] at hb'
      rw [List.mem_map] at ha
      obtain ⟨m', hm', rfl⟩ := ha
      exact hdiff m' hm' hb'.symm
    · simp only [hcount, List.length_append, List.length_singleton, int_wrap_succ]
      push_cast
      rfl

/-- The invariant holds in the state of every outcome, and no run ends in a fault. -/
theorem enum_loop_inv (o : z3_oracle) (ho : oracle_sound o) (n : Nat) (hn : n ≤ 2147483647)
    (fuel : Nat) (st : loop_state) (hinv : loop_inv n st) :
    loop_inv n (enum_loop o (queen_xs n) (queen_ys n) n fuel st).state ∧
    (enum_loop o (queen_xs n) (queen_ys n) n fuel st).no_fault = true := by
  induction fuel generalizing st with
  | zero => exact ⟨hinv, rfl⟩
  | succ fuel ih =>
    by_cases h : o.check st.solver.assertions = .sat
    · obtain ⟨st', e, hinv', -⟩ := enum_loop_sat o ho n hn fuel st hinv h
      rw [e]
      exact ih st' hinv'
    · rw [enum_loop_not_sat _ _ _ _ _ _ h]
      exact ⟨hinv, rfl⟩

/-- When the loop is left, the last answer of `check()` was not `sat`. -/
theorem enum_loop_finished (o : z3_oracle) (ho : oracle_sound o) (n : Nat)
    (hn : n ≤ 2147483647) (fuel : Nat) (st : loop_state) (hinv : loop_inv n st)
    (hfin : (enum_loop o (queen_xs n) (queen_ys n) n fuel st).is_finished = true) :
    o.check (enum_loop o (queen_xs n) (queen_ys n) n fuel st).state.solver.assertions ≠ .sat := by
  induction fuel generalizing st with
  | zero => simp [enum_loop, outcome.is_finished] at hfin
  | succ fuel ih =>
    by_cases h : o.check st.solver.assertions = .sat
    · obtain ⟨st', e, hinv', -⟩ := enum_loop_sat o ho n hn fuel st hinv h
      rw [e] at hfin ⊢
      exact ih st' hinv' hfin
    · rw [enum_loop_not_sat _ _ _ _ _ _ h]
      exact h

theorem inv_models_le (n : Nat) (st : loop_state) (hinv : loop_inv n st) :
    st.models.length ≤ (queens n n).length := by
  obtain ⟨-, hmodels, hnodup, -⟩ := hinv
  have hsub : st.models.map (fun m => model_values m (queen_xs n) (queen_ys n)) ⊆
      (queens n n).map placement_of := by
    intro a ha
    rw [List.mem_map] at ha
    obtain ⟨m, hm, rfl⟩ := ha
    obtain ⟨r, hr, e⟩ := values_mem_queens n m (hmodels m hm)
    rw [e]
    exact List.mem_map_of_mem _ hr
  have := (List.subperm_of_subset hnodup hsub).length_le
  simpa using this

/-- With more fuel than there are placements left to report, the loop is left through its
condition. -/
theorem enum_loop_terminates (o : z3_oracle) (ho : oracle_sound o) (n : Nat)
    (hn : n ≤ 2147483647) (fuel : Nat) (st : loop_state) (hinv : loop_inv n st)
    (hfuel : (queens n n).length < fuel + st.models.length) :
    (enum_loop o (queen_xs n) (queen_ys n) n fuel st).is_finished = true := by
  induction fuel generalizing st with
  | zero =>
    have := inv_models_le n st hinv
    omega
  | succ fuel ih =>
    by_cases h : o.check st.solver.assertions = .sat
    · obtain ⟨st', e, hinv', hm'⟩ := enum_loop_sat o ho n hn fuel st hinv h
      rw [e]
      apply ih st' hinv'
      rw [hm']
      simp only [List.length_append, List.length_singleton]
      omega
    · rw [enum_loop_not_sat _ _ _ _ _ _ h]
      rfl

/-! ## `queen_solve` as a whole -/

theorem queen_solve_eq (o : z3_oracle) (n fuel : Nat) :
    queen_solve o n fuel = write_summary n (enum_loop o (queen_xs n) (queen_ys n) n fuel
      (initial_state ⟨constraint_list n⟩ n)) := by
  have h := queen_constraints_eq n
  unfold queen_constraints at h
  simp only [queen_solve, h]

theorem write_summary_solver (n : Nat) (r : outcome) :
    (write_summary n r).state.solver = r.state.solver := by
  cases r <;> rfl

theorem write_summary_models (n : Nat) (r : outcome) :
    (write_summary n r).state.models = r.state.models := by
  cases r <;> rfl

theorem write_summary_count (n : Nat) (r : outcome) :
    (write_summary n r).state.solutions_count = r.state.solutions_count := by
  cases r <;> rfl

theorem write_summary_is_finished (n : Nat) (r : outcome) :
    (write_summary n r).is_finished = r.is_finished := by
  cases r <;> rfl

theorem write_summary_no_fault (n : Nat) (r : outcome) :
    (write_summary n r).no_fault = r.no_fault := by
  cases r <;> rfl

theorem loop_inv_initial (n : Nat) : loop_inv n (initial_state ⟨constraint_list n⟩ n) := by
  refine ⟨?_, ?_, ?_, ?_⟩ <;> simp [initial_state, int_wrap]

theorem loop_inv_congr (n : Nat) (st st' : loop_state) (h1 : st'.solver = st.solver)
    (h2 : st'.models = st.models) (h3 : st'.solutions_count = st.solutions_count)
    (h : loop_inv n st) : loop_inv n st' := by
  unfold loop_inv
  rw [h1, h2, h3]
  exact h

/-- The invariant holds in the state of every outcome of `queen_solve`. -/
theorem queen_solve_inv (o : z3_oracle) (ho : oracle_sound o) (n : Nat) (hn : n ≤ 2147483647)
    (fuel : Nat) : loop_inv n (queen_solve o n fuel).state := by
  rw [queen_solve_eq]
  exact loop_inv_congr n _ _ (write_summary_solver n _) (write_summary_models n _)
    (write_summary_count n _) (enum_loop_inv o ho n hn fuel _ (loop_inv_initial n)).1

theorem queen_solve_no_fault (o : z3_oracle) (ho : oracle_sound o) (n : Nat)
    (hn : n ≤ 2147483647) (fuel : Nat) : (queen_solve o n fuel).no_fault = true := by
  rw [queen_solve_eq, write_summary_no_fault]
  exact (enum_loop_inv o ho n hn fuel _ (loop_inv_initial n)).2

theorem queen_solve_terminates (o : z3_oracle) (ho : oracle_sound o) (n : Nat)
    (hn : n ≤ 2147483647) (fuel : Nat) (hfuel : (queens n n).length < fuel) :
    (queen_solve o n fuel).is_finished = true := by
  rw [queen_solve_eq, write_summary_is_finished]
  apply enum_loop_terminates o ho n hn fuel _ (loop_inv_initial n)
  simp only [initial_state, List.length_nil]
  omega

theorem queen_solve_last_check (o : z3_oracle) (ho : oracle_sound o) (n : Nat)
    (hn : n ≤ 2147483647) (fuel : Nat) (hfin : (queen_solve o n fuel).is_finished = true) :
    o.check (queen_solve o n fuel).state.solver.assertions ≠ .sat := by
  rw [queen_solve_eq, write_summary_is_finished] at hfin
  rw [queen_solve_eq, write_summary_solver]
  exact enum_loop_finished o ho n hn fuel _ (loop_inv_initial n) hfin

/-! ## At most `n!` placements -/

theorem safe_against_not_mem (c d : Nat) (qs : List Nat) (h : safe_against c d qs = true) :
    c ∉ qs := by
  induction qs generalizing d with
  | nil => simp
  | cons q qs ih =>
    simp only [safe_against, Bool.and_eq_true, bne_iff_ne, ne_eq] at h
    simp only [List.mem_cons, not_or]
    exact ⟨h.1.1.1, ih _ h.2⟩

theorem mem_queens_perm (n k : Nat) (r : List Nat) (h : r ∈ queens n k) :
    r.Nodup ∧ r ⊆ List.range' 1 n := by
  induction k generalizing r with
  | zero => simp [queens] at h; simp [h]
  | succ k ih =>
    rw [queens, mem_extend_rows] at h
    obtain ⟨qs, hqs, c, hc, hsafe, rfl⟩ := h
    obtain ⟨h1, h2⟩ := ih qs hqs
    refine ⟨List.nodup_cons.2 ⟨safe_against_not_mem c 1 qs hsafe, h1⟩, ?_⟩
    intro a ha
    rcases List.mem_cons.1 ha with rfl | ha
    · rw [List.mem_range'_1]
      omega
    · exact h2 ha

theorem queens_length_le (n : Nat) : (queens n n).length ≤ n.factorial := by
  have hsub : queens n n ⊆ (List.range' 1 n).permutations := by
    intro r hr
    obtain ⟨h1, h2⟩ := mem_queens_perm n n r hr
    rw [List.mem_permutations]
    apply (List.subperm_of_subset h1 h2).perm_of_length_le
    rw [length_of_mem_queens n n r hr]
    simp
  have := (List.subperm_of_subset (queens_nodup n n) hsub).length_le
  simpa [List.length_permutations] using this

/-! ## Exhaustive search as an oracle -/

theorem candidate_model_spec (n : Nat) (r : List Nat) (hr : r ∈ queens n n) :
    BoolExpr.evalAll (candidate_model r) (constraint_list n) = true ∧
      model_values (candidate_model r) (queen_xs n) (queen_ys n) = placement_of r := by
  have hlen := length_of_mem_queens n n r hr
  have hdesc := eq_desc r
  rw [hlen] at hdesc
  have hc := (cols_ok_iff n _).1 ((desc_mem_queens n n _).1 (hdesc ▸ hr))
  refine ⟨?_, ?_⟩
  · rw [holds_constraint_list, placement_ok_iff]
    refine ⟨fun i _ => yval_model_of _ _ i, ?_⟩
    exact columns_ok_congr n _ _ (fun i _ => (xval_model_of _ _ i).symm) hc
  · rw [model_values_queen]
    conv_rhs => rw [hdesc, placement_of_desc]
    apply List.map_congr_left
    intro i _
    rw [candidate_model, xval_model_of, yval_model_of]

theorem brute_oracle_sound (n : Nat) : oracle_sound (brute_oracle n) := by
  intro l h
  simp only [brute_oracle] at h ⊢
  split at h
  · rename_i hany
    rw [List.any_eq_true] at hany
    obtain ⟨m, hm, hml⟩ := hany
    cases hf : ((queens n n).map candidate_model).find? (fun m => BoolExpr.evalAll m l) with
    | none =>
      rw [List.find?_eq_none] at hf
      exact absurd hml (hf m hm)
    | some m' =>
      have := List.find?_some hf
      simpa using this
  · cases h

/-- On the constraint set followed by blocking clauses, exhaustive search answers `sat`
whenever there is a model. -/
theorem brute_oracle_complete (n : Nat) (ms : List model) (m : model)
    (hm : BoolExpr.evalAll m (constraint_list n ++ ms.map (block_expr n)) = true) :
    (brute_oracle n).check (constraint_list n ++ ms.map (block_expr n)) = .sat := by
  rw [holds_blocks_iff] at hm
  obtain ⟨r, hr, e⟩ := values_mem_queens n m hm.1
  obtain ⟨h1, h2⟩ := candidate_model_spec n r hr
  have hc : BoolExpr.evalAll (candidate_model r)
      (constraint_list n ++ ms.map (block_expr n)) = true := by
    rw [holds_blocks_iff]
    refine ⟨h1, ?_⟩
    intro m' hm'
    rw [h2, ← e]
    exact hm.2 m' hm'
  simp only [brute_oracle]
  rw [if_pos]
  rw [List.any_eq_true]
  exact ⟨candidate_model r, List.mem_map_of_mem _ hr, hc⟩

/-! ## Completeness of the enumeration -/

/-- In a state of the loop where no model satisfies the assertions any more, the reported
models are, up to order, all the enumerated placements. -/
theorem exhausted_perm (n : Nat) (st : loop_state) (hinv : loop_inv n st)
    (hdone : ∀ m, st.solver.holds m = false) :
    (st.models.map (fun m => model_values m (queen_xs n) (queen_ys n))).Perm
      ((queens n n).map placement_of) := by
  obtain ⟨hsolver, hmodels, hnodup, -⟩ := hinv
  rw [List.perm_ext_iff_of_nodup hnodup ((queens_nodup n n).map placement_of_injective)]
  intro a
  constructor
  · intro ha
    rw [List.mem_map] at ha
    obtain ⟨m, hm, rfl⟩ := ha
    obtain ⟨r, hr, e⟩ := values_mem_queens n m (hmodels m hm)
    rw [e]
    exact List.mem_map_of_mem _ hr
  · intro ha
    rw [List.mem_map] at ha
    obtain ⟨r, hr, rfl⟩ := ha
    obtain ⟨h1, h2⟩ := candidate_model_spec n r hr
    have hno := hdone (candidate_model r)
    rw [solver.holds, hsolver] at hno
    by_contra hnot
    have : BoolExpr.evalAll (candidate_model r)
        (constraint_list n ++ st.models.map (block_expr n)) = true := by
      rw [holds_blocks_iff]
      refine ⟨h1, ?_⟩
      intro m' hm' e
      apply hnot
      rw [← h2, e]
      exact List.mem_map_of_mem _ hm'
    rw [this] at hno
    cases hno

theorem exhausted_count (n : Nat) (st : loop_state) (hinv : loop_inv n st)
    (hdone : ∀ m, st.solver.holds m = false) :
    st.models.length = (queens n n).length ∧
      st.solutions_count = int_wrap (queens n n).length := by
  have h := (exhausted_perm n st hinv hdone).length_eq
  simp only [List.length_map] at h
  exact ⟨h, by rw [hinv.2.2.2, h]⟩

/-- A run with exhaustive search that was left through the loop condition has no model
left. -/
theorem brute_oracle_exhausts (n : Nat) (hn : n ≤ 2147483647) (fuel : Nat)
    (hfin : (queen_solve (brute_oracle n) n fuel).is_finished = true) (m : model) :
    (queen_solve (brute_oracle n) n fuel).state.solver.holds m = false := by
  have hinv := queen_solve_inv (brute_oracle n) (brute_oracle_sound n) n hn fuel
  have hlast := queen_solve_last_check (brute_oracle n) (brute_oracle_sound n) n hn fuel hfin
  by_contra hne
  rw [Bool.not_eq_false, solver.holds] at hne
  rw [hinv.1] at hne hlast
  exact hlast (brute_oracle_complete n _ m hne)

theorem models_agree_iff (n : Nat) (m m' : model) :
    models_agree n m m' ↔
      model_values m (queen_xs n) (queen_ys n) = model_values m' (queen_xs n) (queen_ys n) := by
  rw [model_values_eq_iff]
  constructor
  · intro h i hi
    have := h i hi
    rwa [value_at_xs m n i hi, value_at_xs m' n i hi, value_at_ys m n i hi,
      value_at_ys m' n i hi] at this
  · intro h i hi
    rw [value_at_xs m n i hi, value_at_xs m' n i hi, value_at_ys m n i hi,
      value_at_ys m' n i hi]
    exact h i hi

theorem sample_oracle_sound : oracle_sound sample_oracle := by
  intro l h
  simp only [sample_oracle] at h ⊢
  split at h
  · assumption
  · cases h

theorem queens_4_length : (queens 4 4).length = 2 := by decide

set_option maxRecDepth 1000000 in
set_option maxHeartbeats 4000000 in
theorem queens_8_length : (queens 8 8).length = 92 := by decide

theorem queens_2_eq : queens 2 2 = [] := by decide

theorem queens_3_eq : queens 3 3 = [] := by decide

theorem queens_1_eq : queens 1 1 = [[1]] := by decide

/-- With a sound oracle and an exhausted final state, `queen_solve` has reported as many
models as there are placements. -/
theorem queen_solve_exact (o : z3_oracle) (ho : oracle_sound o) (n : Nat)
    (hn : n ≤ 2147483647) (fuel : Nat) (hfuel : (queens n n).length < fuel)
    (hdone : ∀ m, (queen_solve o n fuel).state.solver.holds m = false) :
    (queen_solve o n fuel).is_finished = true ∧
    (queen_solve o n fuel).state.models.length = (queens n n).length ∧
    (queen_solve o n fuel).state.solutions_count = int_wrap (queens n n).length ∧
    List.Pairwise (fun m m' => ¬ models_agree n m m') (queen_solve o n fuel).state.models := by
  have hinv := queen_solve_inv o ho n hn fuel
  obtain ⟨h1, h2⟩ := exhausted_count n _ hinv hdone
  refine ⟨queen_solve_terminates o ho n hn fuel hfuel, h1, h2, ?_⟩
  have hnd := hinv.2.2.1
  rw [List.Nodup, List.pairwise_map] at hnd
  exact hnd.imp (fun h hag => h ((models_agree_iff n _ _).1 hag))

/-- C2: the constraint set built by `queen_solve(4)` has exactly 2 satisfying assignments;
so a run of `queen_solve(4)` with a sound oracle and enough fuel, whose last `check()` was
right to answer that no model is left, is left through the loop condition after exactly 2
models, pairwise different, and `solutions_count` is 2. -/
theorem four_queens_count :
    (satisfying_assignments 4).ncard = 2 ∧
    ∀ (o : z3_oracle) (fuel : Nat), oracle_sound o → 2 < fuel →
      (∀ m, (queen_solve o 4 fuel).state.solver.holds m = false) →
      (queen_solve o 4 fuel).is_finished = true ∧
      (queen_solve o 4 fuel).state.models.length = 2 ∧
      (queen_solve o 4 fuel).state.solutions_count = 2 ∧
      List.Pairwise (fun m m' => ¬ models_agree 4 m m') (queen_solve o 4 fuel).state.models := by
  refine ⟨by rw [satisfying_assignments_ncard, queens_4_length], ?_⟩
  intro o fuel ho hfuel hdone
  have h := queen_solve_exact o ho 4 (by decide) fuel (by rw [queens_4_length]; exact hfuel) hdone
  rw [queens_4_length] at h
  exact h

/-- Witness of `four_queens_count`: exhaustive search as the oracle, with fuel 3. -/
theorem four_queens_count_witness :
    oracle_sound (brute_oracle 4) ∧
    (∀ m, (queen_solve (brute_oracle 4) 4 3).state.solver.holds m = false) ∧
    (queen_solve (brute_oracle 4) 4 3).state.solutions_count = 2 :=
  have hfin : (queen_solve (brute_oracle 4) 4 3).is_finished = true :=
    queen_solve_terminates _ (brute_oracle_sound 4) 4 (by decide) 3 (by decide)
  ⟨brute_oracle_sound 4, brute_oracle_exhausts 4 (by decide) 3 hfin,
    (four_queens_count.2 (brute_oracle 4) 3 (brute_oracle_sound 4) (by decide)
      (brute_oracle_exhausts 4 (by decide) 3 hfin)).2.2.1⟩

/-- C3: the constraint set built by `queen_solve(8)` has exactly 92 satisfying assignments;
so a run of `queen_solve(8)` with a sound oracle and enough fuel, whose last `check()` was
right to answer that no model is left, is left through the loop condition after exactly 92
models, pairwise different, and `solutions_count` is 92. -/
theorem eight_queens_count :
    (satisfying_assignments 8).ncard = 92 ∧
    ∀ (o : z3_oracle) (fuel : Nat), oracle_sound o → 92 < fuel →
      (∀ m, (queen_solve o 8 fuel).state.solver.holds m = false) →
      (queen_solve o 8 fuel).is_finished = true ∧
      (queen_solve o 8 fuel).state.models.length = 92 ∧
      (queen_solve o 8 fuel).state.solutions_count = 92 ∧
      List.Pairwise (fun m m' => ¬ models_agree 8 m m') (queen_solve o 8 fuel).state.models := by
  refine ⟨by rw [satisfying_assignments_ncard, queens_8_length], ?_⟩
  intro o fuel ho hfuel hdone
  have h := queen_solve_exact o ho 8 (by decide) fuel (by rw [queens_8_length]; exact hfuel) hdone
  rw [queens_8_length] at h
  exact h

/-- Witness of `eight_queens_count`: exhaustive search as the oracle, with fuel 93. -/
theorem eight_queens_count_witness :
    oracle_sound (brute_oracle 8) ∧
    (∀ m, (queen_solve (brute_oracle 8) 8 93).state.solver.holds m = false) ∧
    (queen_solve (brute_oracle 8) 8 93).state.solutions_count = 92 :=
  have hfin : (queen_solve (brute_oracle 8) 8 93).is_finished = true :=
    queen_solve_terminates _ (brute_oracle_sound 8) 8 (by decide) 93
      (by rw [queens_8_length]; decide)
  ⟨brute_oracle_sound 8, brute_oracle_exhausts 8 (by decide) 93 hfin,
    (eight_queens_count.2 (brute_oracle 8) 93 (brute_oracle_sound 8) (by decide)
      (brute_oracle_exhausts 8 (by decide) 93 hfin)).2.2.1⟩

/-- Without a model of the constraint set, the loop is left at the first evaluation of its
condition. -/
theorem queen_solve_unsat (o : z3_oracle) (ho : oracle_sound o) (n : Nat)
    (hunsat : ∀ m, BoolExpr.evalAll m (constraint_list n) = false) (fuel : Nat)
    (hfuel : 1 ≤ fuel) :
    (queen_solve o n fuel).is_finished = true ∧ (queen_solve o n fuel).state.models = [] ∧
      (queen_solve o n fuel).state.solutions_count = 0 := by
  obtain ⟨k, rfl⟩ : ∃ k, fuel = k + 1 := ⟨fuel - 1, by omega⟩
  have hcheck : o.check (initial_state ⟨constraint_list n⟩ n).solver.assertions ≠ .sat := by
    intro h
    have := ho _ h
    simp only [initial_state] at this
    rw [hunsat] at this
    cases this
  rw [queen_solve_eq, enum_loop_not_sat _ _ _ _ _ _ hcheck]
  exact ⟨rfl, rfl, rfl⟩

theorem no_model_of_queens_nil (n : Nat) (h : queens n n = []) (m : model) :
    BoolExpr.evalAll m (constraint_list n) = false := by
  by_contra hne
  rw [Bool.not_eq_false] at hne
  obtain ⟨r, hr, -⟩ := values_mem_queens n m hne
  rw [h] at hr
  cases hr

/-- C4: for `n = 2` and for `n = 3` the constraint set built by `queen_solve(n)` has no
satisfying assignment, so with a sound oracle the loop is left at the first evaluation of
its condition: no model is reported and `solutions_count` is 0 when the loop ends. -/
theorem two_three_queens_no_solution :
    (∃ s, queen_constraints 2 = some s ∧ ∀ m, s.holds m = false) ∧
    (∃ s, queen_constraints 3 = some s ∧ ∀ m, s.holds m = false) ∧
    ∀ (o : z3_oracle) (fuel : Nat), oracle_sound o → 1 ≤ fuel →
      ((queen_solve o 2 fuel).is_finished = true ∧ (queen_solve o 2 fuel).state.models = [] ∧
        (queen_solve o 2 fuel).state.solutions_count = 0) ∧
      ((queen_solve o 3 fuel).is_finished = true ∧ (queen_solve o 3 fuel).state.models = [] ∧
        (queen_solve o 3 fuel).state.solutions_count = 0) := by
  refine ⟨⟨_, queen_constraints_eq 2, no_model_of_queens_nil 2 queens_2_eq⟩,
    ⟨_, queen_constraints_eq 3, no_model_of_queens_nil 3 queens_3_eq⟩, ?_⟩
  intro o fuel ho hfuel
  exact ⟨queen_solve_unsat o ho 2 (no_model_of_queens_nil 2 queens_2_eq) fuel hfuel,
    queen_solve_unsat o ho 3 (no_model_of_queens_nil 3 queens_3_eq) fuel hfuel⟩

/-- Witness of `two_three_queens_no_solution`: the oracle that knows the sample model of the
board of size four, with fuel 1. -/
theorem two_three_queens_no_solution_witness :
    oracle_sound sample_oracle ∧ (queen_solve sample_oracle 3 1).state.solutions_count = 0 :=
  ⟨sample_oracle_sound,
    (two_three_queens_no_solution.2.2 sample_oracle 1 sample_oracle_sound (by decide)).2.2.2⟩

theorem holds_one_iff (m : model) :
    BoolExpr.evalAll m (constraint_list 1) = true ↔
      value_at m (queen_xs 1) 0 = 1 ∧ value_at m (queen_ys 1) 0 = 1 := by
  rw [holds_constraint_list, value_at_xs m 1 0 (by decide), value_at_ys m 1 0 (by decide)]
  constructor
  · intro h
    have h1 := h.xbound 0 (by decide)
    have h2 := h.ybound 0 (by decide)
    constructor <;> omega
  · rintro ⟨h1, h2⟩
    refine ⟨?_, ?_, ?_, ?_, ?_, ?_⟩
    · intro i hi1 hi2; omega
    · intro i hi
      obtain rfl : i = 0 := by omega
      rw [h1]; decide
    · intro i hi
      obtain rfl : i = 0 := by omega
      rw [h2]; decide
    · intro i j hi hj hij; omega
    · intro i j hi hj hij; omega
    · intro i j hij hj; omega

/-- C5: the constraint set built by `queen_solve(1)` has exactly one satisfying assignment,
`x_0 = 1` and `y_0 = 1`; so a run of `queen_solve(1)` with a sound oracle and fuel for two
evaluations of the loop condition, whose last `check()` was right to answer that no model is
left, reports exactly one model, with the placement `(1, 1)`, and `solutions_count` is 1. -/
theorem one_queen_one_solution :
    (∃ s, queen_constraints 1 = some s ∧ ∀ m, s.holds m = true ↔
      (value_at m (queen_xs 1) 0 = 1 ∧ value_at m (queen_ys 1) 0 = 1)) ∧
    satisfying_assignments 1 = {[(1, 1)]} ∧
    ∀ (o : z3_oracle) (fuel : Nat), oracle_sound o → 1 < fuel →
      (∀ m, (queen_solve o 1 fuel).state.solver.holds m = false) →
      (queen_solve o 1 fuel).is_finished = true ∧
      (queen_solve o 1 fuel).state.solutions_count = 1 ∧
      ∃ m, (queen_solve o 1 fuel).state.models = [m] ∧
        get_queens_positions m (queen_xs 1) (queen_ys 1) = some [(1, 1)] := by
  refine ⟨⟨_, queen_constraints_eq 1, holds_one_iff⟩, ?_, ?_⟩
  · rw [satisfying_assignments_eq, queens_1_eq]
    have e : placement_of [1] = [(1, 1)] := by decide
    ext a
    simp [e]
  · intro o fuel ho hfuel hdone
    have h := queen_solve_exact o ho 1 (by decide) fuel (by rw [queens_1_eq]; exact hfuel) hdone
    rw [queens_1_eq] at h
    obtain ⟨h1, h2, h3, -⟩ := h
    refine ⟨h1, h3, ?_⟩
    obtain ⟨m, hm⟩ := List.length_eq_one.1 h2
    refine ⟨m, hm, ?_⟩
    have hinv := queen_solve_inv o ho 1 (by decide) fuel
    have hsat := hinv.2.1 m (by rw [hm]; exact List.mem_singleton_self m)
    have hv := (holds_one_iff m).1 hsat
    rw [get_queens_positions_eq 1 m]
    · have hl : (queen_xs 1).length = 1 := by simp [queen_xs_eq]
      rw [model_values, hl, show List.range 1 = [0] from rfl, List.map_singleton, hv.1, hv.2]
    · intro i hi
      obtain rfl : i = 0 := by omega
      rw [← value_at_xs m 1 0 (by decide), ← value_at_ys m 1 0 (by decide), hv.1, hv.2]
      decide

/-- Witness of `one_queen_one_solution`: exhaustive search as the oracle, with fuel 2. -/
theorem one_queen_one_solution_witness :
    oracle_sound (brute_oracle 1) ∧
    (∀ m, (queen_solve (brute_oracle 1) 1 2).state.solver.holds m = false) ∧
    (queen_solve (brute_oracle 1) 1 2).state.solutions_count = 1 :=
  have hfin : (queen_solve (brute_oracle 1) 1 2).is_finished = true :=
    queen_solve_terminates _ (brute_oracle_sound 1) 1 (by decide) 2 (by decide)
  ⟨brute_oracle_sound 1, brute_oracle_exhausts 1 (by decide) 2 hfin,
    (one_queen_one_solution.2.2 (brute_oracle 1) 2 (brute_oracle_sound 1) (by decide)
      (brute_oracle_exhausts 1 (by decide) 2 hfin)).2.1⟩

/-! ## The constraint set against the classical N-queens problem -/

theorem placement_ok_diag_ne {n : Nat} {X Y : Nat → Int} (h : placement_ok n X Y) (i j : Nat)
    (hi : i < n) (hj : j < n) (hij : i ≠ j) : |X i - X j| ≠ |Y i - Y j| := by
  rcases Nat.lt_or_gt_of_ne hij with hlt | hgt
  · rw [abs_sub_comm (X i), abs_sub_comm (Y i)]
    exact h.diag i j hlt hj
  · exact h.diag j i hgt hi

/-- The satisfying assignments, without models: the lists of the columns and rows that
satisfy the four constraint families. -/
theorem mem_satisfying_iff (n : Nat) (a : List (Int × Int)) :
    a ∈ satisfying_assignments n ↔
      ∃ X Y, placement_ok n X Y ∧ a = (List.range n).map (fun i => (X i, Y i)) := by
  constructor
  · rintro ⟨s, m, hs, hm, rfl⟩
    exact ⟨xval m, yval m, (holds_build n s hs m).1 hm, model_values_queen m n⟩
  · rintro ⟨X, Y, h, rfl⟩
    refine ⟨⟨constraint_list n⟩, model_of X Y, queen_constraints_eq n, ?_, ?_⟩
    · rw [solver.holds, holds_constraint_list]
      have e1 : xval (model_of X Y) = X := funext (xval_model_of X Y)
      have e2 : yval (model_of X Y) = Y := funext (yval_model_of X Y)
      rw [e1, e2]
      exact h
    · rw [model_values_queen]
      apply List.map_congr_left
      intro i _
      rw [xval_model_of, yval_model_of]

theorem squares_mapsTo (n : Nat) :
    Set.MapsTo squares_of (satisfying_assignments n) (classical_queens n) := by
  intro a ha
  obtain ⟨X, Y, h, rfl⟩ := (mem_satisfying_iff n a).1 ha
  refine ⟨?_, ?_, ?_⟩
  · rw [squares_of, List.toFinset_card_of_nodup]
    · simp
    · rw [List.nodup_map_iff_inj_on (List.nodup_range n)]
      intro i hi j hj e
      by_contra hij
      rw [List.mem_range] at hi hj
      exact h.ydistinct i j hi hj hij (congrArg Prod.snd e)
  · intro p hp
    simp only [squares_of, List.mem_toFinset, List.mem_map, List.mem_range] at hp
    obtain ⟨i, hi, rfl⟩ := hp
    exact ⟨(h.xbound i hi).1, (h.xbound i hi).2, (h.ybound i hi).1, (h.ybound i hi).2⟩
  · intro p hp q hq hpq
    simp only [squares_of, List.mem_toFinset, List.mem_map, List.mem_range] at hp hq
    obtain ⟨i, hi, rfl⟩ := hp
    obtain ⟨j, hj, rfl⟩ := hq
    have hij : i ≠ j := by
      rintro rfl
      exact hpq rfl
    exact ⟨h.xdistinct i j hi hj hij, h.ydistinct i j hi hj hij,
      placement_ok_diag_ne h i j hi hj hij⟩

theorem squares_injOn (n : Nat) : Set.InjOn squares_of (satisfying_assignments n) := by
  intro a ha a' ha' e
  obtain ⟨X, Y, h, rfl⟩ := (mem_satisfying_iff n a).1 ha
  obtain ⟨X', Y', h', rfl⟩ := (mem_satisfying_iff n a').1 ha'
  apply List.map_congr_left
  intro i hi
  rw [List.mem_range] at hi
  have hmem : (X i, Y i) ∈ squares_of ((List.range n).map (fun i => (X' i, Y' i))) := by
    rw [← e]
    simp only [squares_of, List.mem_toFinset, List.mem_map, List.mem_range]
    exact ⟨i, hi, rfl⟩
  simp only [squares_of, List.mem_toFinset, List.mem_map, List.mem_range] at hmem
  obtain ⟨j, hj, ej⟩ := hmem
  have e1 : Y' j = Y i := congrArg Prod.snd ej
  rw [row_forced h i hi, row_forced h' j hj] at e1
  have hji : j = i := by omega
  rw [hji] at ej
  exact ej.symm

theorem squares_surjOn (n : Nat) :
    Set.SurjOn squares_of (satisfying_assignments n) (classical_queens n) := by
  rintro S ⟨hcard, hbound, hpair⟩
  have hinj : Set.InjOn Prod.snd (S : Set (Int × Int)) := by
    intro p hp q hq e
    by_contra hpq
    exact (hpair p hp q hq hpq).2.1 e
  have hrows : S.image Prod.snd = Finset.Icc (1 : Int) n := by
    apply Finset.eq_of_subset_of_card_le
    · intro r hr
      rw [Finset.mem_image] at hr
      obtain ⟨p, hp, rfl⟩ := hr
      rw [Finset.mem_Icc]
      exact ⟨(hbound p hp).2.2.1, (hbound p hp).2.2.2⟩
    · rw [Finset.card_image_of_injOn hinj, hcard, Int.card_Icc]
      simp
  have hex : ∀ i : Nat, ∃ c : Int, i < n → (c, (i : Int) + 1) ∈ S := by
    intro i
    by_cases hi : i < n
    · have : ((i : Int) + 1) ∈ S.image Prod.snd := by
        rw [hrows, Finset.mem_Icc]
        omega
      rw [Finset.mem_image] at this
      obtain ⟨p, hp, e⟩ := this
      refine ⟨p.1, fun _ => ?_⟩
      rw [← e]
      exact hp
    · exact ⟨0, fun h => absurd h hi⟩
  choose X hX using hex
  have hc : columns_ok n X := by
    refine ⟨?_, ?_, ?_⟩
    · intro i hi
      have := hbound _ (hX i hi)
      exact ⟨this.1, this.2.1⟩
    · intro i j hij hj
      have hne : (X i, (i : Int) + 1) ≠ (X j, (j : Int) + 1) := by
        intro e
        have := congrArg Prod.snd e
        simp only at this
        omega
      exact (hpair _ (hX i (by omega)) _ (hX j hj) hne).1
    · intro i j hij hj
      have hne : (X j, (j : Int) + 1) ≠ (X i, (i : Int) + 1) := by
        intro e
        have := congrArg Prod.snd e
        simp only at this
        omega
      have := (hpair _ (hX j hj) _ (hX i (by omega)) hne).2.2
      have e : |((j : Int) + 1) - (i + 1)| = (j : Int) - i := by
        rw [abs_of_nonneg] <;> omega
      simp only at this
      rwa [e] at this
  have hp : placement_ok n X (fun i => (i : Int) + 1) :=
    (placement_ok_iff n X _).2 ⟨fun _ _ => rfl, hc⟩
  refine ⟨(List.range n).map (fun i => (X i, (i : Int) + 1)),
    (mem_satisfying_iff n _).2 ⟨X, _, hp, rfl⟩, ?_⟩
  apply Finset.eq_of_subset_of_card_le
  · intro p hp'
    simp only [squares_of, List.mem_toFinset, List.mem_map, List.mem_range] at hp'
    obtain ⟨i, hi, rfl⟩ := hp'
    exact hX i hi
  · rw [hcard, ((squares_mapsTo n) ((mem_satisfying_iff n _).2 ⟨X, _, hp, rfl⟩)).1]

/-- C6 (refinement): mapping a satisfying assignment of the constraint set of
`queen_solve(n)` to its set of squares is a bijection onto the classical N-queens solutions
(the sets of `n` mutually non-attacking squares of the `n × n` board), so the two counts
are equal: the ordering constraint removes relabelings only. -/
theorem assignments_biject_classical (n : Nat) :
    Set.BijOn squares_of (satisfying_assignments n) (classical_queens n) ∧
    (satisfying_assignments n).ncard = (classical_queens n).ncard := by
  have hbij : Set.BijOn squares_of (satisfying_assignments n) (classical_queens n) :=
    ⟨squares_mapsTo n, squares_injOn n, squares_surjOn n⟩
  refine ⟨hbij, ?_⟩
  rw [← hbij.image_eq, Set.ncard_image_of_injOn hbij.injOn]

/-! ## Properties of the enumeration -/

theorem holds_final_iff (o : z3_oracle) (ho : oracle_sound o) (n : Nat) (hn : n ≤ 2147483647)
    (fuel : Nat) (m : model) :
    (queen_solve o n fuel).state.solver.holds m = true ↔
      BoolExpr.evalAll m (constraint_list n) = true ∧
      ∀ m' ∈ (queen_solve o n fuel).state.models, ¬ models_agree n m m' := by
  have hinv := queen_solve_inv o ho n hn fuel
  rw [solver.holds, hinv.1, holds_blocks_iff]
  simp only [models_agree_iff, ne_eq]

theorem models_pairwise (o : z3_oracle) (ho : oracle_sound o) (n : Nat) (hn : n ≤ 2147483647)
    (fuel : Nat) :
    List.Pairwise (fun m m' => ¬ models_agree n m m') (queen_solve o n fuel).state.models := by
  have hnd := (queen_solve_inv o ho n hn fuel).2.2.1
  rw [List.Nodup, List.pairwise_map] at hnd
  exact hnd.imp (fun h hag => h ((models_agree_iff n _ _).1 hag))

/-- C7 (no repeat): in every state of the enumeration loop of `queen_solve(n)`, run with an
oracle whose `sat` answers come with a model of the current assertions, no two of the
reported models agree on the value of every variable `x_i`, `y_i`, and no model that agrees
with a reported one satisfies the assertions any more, so that none can be returned again.
(`queen_count` is a C++ `int`, hence the bound on `n`.) -/
theorem no_model_reported_twice (o : z3_oracle) (ho : oracle_sound o) (n : Nat)
    (hn : n ≤ 2147483647) (fuel : Nat) :
    List.Pairwise (fun m m' => ¬ models_agree n m m') (queen_solve o n fuel).state.models ∧
    (∀ m ∈ (queen_solve o n fuel).state.models, ∀ m', models_agree n m' m →
      (queen_solve o n fuel).state.solver.holds m' = false) ∧
    (o.check (queen_solve o n fuel).state.solver.assertions = .sat →
      ∀ m ∈ (queen_solve o n fuel).state.models,
        ¬ models_agree n (o.get_model (queen_solve o n fuel).state.solver.assertions) m) := by
  refine ⟨models_pairwise o ho n hn fuel, ?_, ?_⟩
  · intro m hm m' hag
    by_contra hne
    rw [Bool.not_eq_false] at hne
    exact ((holds_final_iff o ho n hn fuel m').1 hne).2 m hm hag
  · intro hsat m hm
    have := ho _ hsat
    exact ((holds_final_iff o ho n hn fuel _).1 this).2 m hm

/-- Witness of `no_model_reported_twice`: the oracle that knows the sample model, on the
board of size four. -/
theorem no_model_reported_twice_witness :
    oracle_sound sample_oracle ∧ 4 ≤ 2147483647 ∧
    List.Pairwise (fun m m' => ¬ models_agree 4 m m')
      (queen_solve sample_oracle 4 2).state.models :=
  ⟨sample_oracle_sound, by decide,
    (no_model_reported_twice sample_oracle sample_oracle_sound 4 (by decide) 2).1⟩

/-- C8: two models of the constraint set of `queen_solve(n)` with the same unordered set of
positions agree on every variable; and the position sets reported in a run with a sound
oracle (the results of `get_queens_positions`, as sets) are pairwise different. -/
theorem position_sets_distinct (o : z3_oracle) (ho : oracle_sound o) (n : Nat)
    (hn : n ≤ 2147483647) (fuel : Nat) :
    (∀ s m m', queen_constraints n = some s → s.holds m = true → s.holds m' = true →
      squares_of (model_values m (queen_xs n) (queen_ys n)) =
        squares_of (model_values m' (queen_xs n) (queen_ys n)) → models_agree n m m') ∧
    List.Pairwise (fun m m' => ∃ ps ps',
        get_queens_positions m (queen_xs n) (queen_ys n) = some ps ∧
        get_queens_positions m' (queen_xs n) (queen_ys n) = some ps' ∧
        squares_of ps ≠ squares_of ps') (queen_solve o n fuel).state.models := by
  have key : ∀ s m m', queen_constraints n = some s → s.holds m = true → s.holds m' = true →
      squares_of (model_values m (queen_xs n) (queen_ys n)) =
        squares_of (model_values m' (queen_xs n) (queen_ys n)) → models_agree n m m' := by
    intro s m m' hs hm hm' e
    rw [models_agree_iff]
    exact squares_injOn n ⟨s, m, hs, hm, rfl⟩ ⟨s, m', hs, hm', rfl⟩ e
  refine ⟨key, ?_⟩
  have hinv := queen_solve_inv o ho n hn fuel
  have hpos : ∀ m ∈ (queen_solve o n fuel).state.models,
      get_queens_positions m (queen_xs n) (queen_ys n) =
        some (model_values m (queen_xs n) (queen_ys n)) := by
    intro m hm
    apply get_queens_positions_eq
    intro i hi
    have hp := (holds_constraint_list n m).1 (hinv.2.1 m hm)
    have h1 := hp.xbound i hi
    have h2 := hp.ybound i hi
    have hn' : (n : Int) ≤ 2147483647 := by exact_mod_cast hn
    exact ⟨⟨by omega, by omega⟩, ⟨by omega, by omega⟩⟩
  have hpw := models_pairwise o ho n hn fuel
  rw [List.pairwise_iff_forall_sublist] at hpw ⊢
  intro m m' hsub
  have hm : m ∈ (queen_solve o n fuel).state.models := hsub.subset (by simp)
  have hm' : m' ∈ (queen_solve o n fuel).state.models := hsub.subset (by simp)
  refine ⟨_, _, hpos m hm, hpos m' hm', ?_⟩
  intro e
  exact hpw hsub (key ⟨constraint_list n⟩ m m' (queen_constraints_eq n) (hinv.2.1 m hm)
    (hinv.2.1 m' hm') e)

/-- Witness of `position_sets_distinct`: the oracle that knows the sample model, on the
board of size four. -/
theorem position_sets_distinct_witness :
    oracle_sound sample_oracle ∧ 4 ≤ 2147483647 ∧
    List.Pairwise (fun m m' => ∃ ps ps',
        get_queens_positions m (queen_xs 4) (queen_ys 4) = some ps ∧
        get_queens_positions m' (queen_xs 4) (queen_ys 4) = some ps' ∧
        squares_of ps ≠ squares_of ps') (queen_solve sample_oracle 4 2).state.models :=
  ⟨sample_oracle_sound, by decide,
    (position_sets_distinct sample_oracle sample_oracle_sound 4 (by decide) 2).2⟩

/-- C9 (termination): run with an oracle whose `sat` answers come with a model of the
current assertions, the loop of `queen_solve(n)` finds at most `n!` solutions, and it is
left through its condition, without a fault, as soon as the fuel allows `n! + 1`
evaluations of the condition. -/
theorem enumeration_halts (o : z3_oracle) (ho : oracle_sound o) (n : Nat)
    (hn : n ≤ 2147483647) (fuel : Nat) :
    (queen_solve o n fuel).state.models.length ≤ n.factorial ∧
    (queen_solve o n fuel).no_fault = true ∧
    (n.factorial < fuel → (queen_solve o n fuel).is_finished = true) := by
  refine ⟨?_, queen_solve_no_fault o ho n hn fuel, ?_⟩
  · exact le_trans (inv_models_le n _ (queen_solve_inv o ho n hn fuel)) (queens_length_le n)
  · intro hfuel
    exact queen_solve_terminates o ho n hn fuel (lt_of_le_of_lt (queens_length_le n) hfuel)

/-- Witness of `enumeration_halts`: the oracle that knows the sample model, on the board of
size four, with fuel 25. -/
theorem enumeration_halts_witness :
    oracle_sound sample_oracle ∧ 4 ≤ 2147483647 ∧
    (queen_solve sample_oracle 4 25).is_finished = true :=
  ⟨sample_oracle_sound, by decide,
    (enumeration_halts sample_oracle sample_oracle_sound 4 (by decide) 25).2.2 (by decide)⟩

/-- C10 (invariant): in the state at every evaluation of the loop condition of
`queen_solve(n)` (the state of the outcome, for every amount of fuel), a model satisfies the
accumulated assertions exactly when it satisfies the constraint set built before the loop and
differs in some variable `x_i`, `y_i` from every model reported so far; and one call of
`add_solution_to_solver` removes exactly the models that agree with the reported one. -/
theorem loop_invariant (o : z3_oracle) (ho : oracle_sound o) (n : Nat)
    (hn : n ≤ 2147483647) (fuel : Nat) (m : model) :
    ((queen_solve o n fuel).state.solver.holds m = true ↔
      (∃ s, queen_constraints n = some s ∧ s.holds m = true) ∧
      ∀ m' ∈ (queen_solve o n fuel).state.models, ¬ models_agree n m m') ∧
    ∀ (s : solver) (m' : model), ∃ s',
      add_solution_to_solver s m' (queen_xs n) (queen_ys n) = some s' ∧
      (s'.holds m = true ↔ s.holds m = true ∧ ¬ models_agree n m m') := by
  refine ⟨?_, ?_⟩
  · rw [holds_final_iff o ho n hn fuel m]
    constructor
    · rintro ⟨h1, h2⟩
      exact ⟨⟨_, queen_constraints_eq n, h1⟩, h2⟩
    · rintro ⟨⟨s, hs, h1⟩, h2⟩
      rw [queen_constraints_eq] at hs
      cases hs
      exact ⟨h1, h2⟩
  · intro s m'
    refine ⟨_, add_solution_to_solver_eq n s m', ?_⟩
    simp only [solver.holds, evalAll_append, Bool.and_eq_true, BoolExpr.evalAll,
      Bool.and_true, eval_block_expr, models_agree_iff, ne_eq]

/-- Witness of `loop_invariant`: the oracle that knows the sample model, on the board of
size four; after the sample model was reported it does not satisfy the assertions. -/
theorem loop_invariant_witness :
    oracle_sound sample_oracle ∧ 4 ≤ 2147483647 ∧
    ((queen_solve sample_oracle 4 2).state.solver.holds sample_model_4 = true ↔
      (∃ s, queen_constraints 4 = some s ∧ s.holds sample_model_4 = true) ∧
      ∀ m' ∈ (queen_solve sample_oracle 4 2).state.models,
        ¬ models_agree 4 sample_model_4 m') :=
  ⟨sample_oracle_sound, by decide,
    (loop_invariant sample_oracle sample_oracle_sound 4 (by decide) 2 sample_model_4).1⟩

/-! ## One queen per column and per row -/

/-- Pigeonhole: `n` pairwise distinct values between 1 and `n` take every value once. -/
theorem each_value_once (n : Nat) (V : List Int) (hlen : V.length = n) (hnd : V.Nodup)
    (hb : ∀ v ∈ V, 1 ≤ v ∧ v ≤ n) (c : Int) (h1 : 1 ≤ c) (h2 : c ≤ n) :
    ∃! i, i < n ∧ V[i]? = some c := by
  have hset : V.toFinset = Finset.Icc (1 : Int) n := by
    apply Finset.eq_of_subset_of_card_le
    · intro v hv
      rw [List.mem_toFinset] at hv
      rw [Finset.mem_Icc]
      exact hb v hv
    · rw [List.toFinset_card_of_nodup hnd, hlen, Int.card_Icc]
      simp
  have hc : c ∈ V := by
    rw [← List.mem_toFinset, hset, Finset.mem_Icc]
    exact ⟨h1, h2⟩
  obtain ⟨i, hi, e⟩ := List.getElem_of_mem hc
  refine ⟨i, ⟨by omega, by rw [List.getElem?_eq_getElem hi, e]⟩, ?_⟩
  rintro j ⟨hj, ej⟩
  have hj' : j < V.length := by omega
  rw [List.getElem?_eq_getElem hj', Option.some.injEq] at ej
  exact (hnd.getElem_inj_iff).1 (ej.trans e.symm)

theorem eval_distinct (m : model) (t : List IntExpr) :
    (BoolExpr.distinct t).eval m = true ↔ (t.map (IntExpr.eval m)).Nodup := by
  simp only [BoolExpr.eval, distinct_vals_iff]

theorem holds_bounding_and_distinct (xs ys : List IntExpr) (n : Nat) (m : model) :
    (bounding_and_distinct xs ys n).holds m = true ↔
      (∀ e ∈ xs, 1 ≤ e.eval m ∧ e.eval m ≤ n) ∧ (∀ e ∈ ys, 1 ≤ e.eval m ∧ e.eval m ≤ n) ∧
      (xs.map (IntExpr.eval m)).Nodup ∧ (ys.map (IntExpr.eval m)).Nodup := by
  simp only [bounding_and_distinct, set_values_distinct_eq, set_board_size_limit_eq,
    solver.holds, List.nil_append, evalAll_append, Bool.and_eq_true, evalAll_iff,
    List.mem_map, List.mem_singleton, forall_exists_index, and_imp, forall_apply_eq_imp_iff₂,
    eval_bound_expr, forall_eq, eval_distinct]
  tauto

/-- C11: under the bounding constraints and the two distinctness constraints on `n` column
variables and `n` row variables, every column `c` in `1 .. n` is the value of exactly one
`x_i` and every row `r` in `1 .. n` the value of exactly one `y_i`: one queen per column and
one per row. -/
theorem one_queen_per_column_and_row (n : Nat) (xs ys : List IntExpr) (hx : xs.length = n)
    (hy : ys.length = n) (m : model) (hm : (bounding_and_distinct xs ys n).holds m = true)
    (c : Int) (h1 : 1 ≤ c) (h2 : c ≤ n) :
    (∃! i, i < n ∧ value_at m xs i = c) ∧ (∃! i, i < n ∧ value_at m ys i = c) := by
  obtain ⟨hbx, hby, hdx, hdy⟩ := (holds_bounding_and_distinct xs ys n m).1 hm
  have key : ∀ v : List IntExpr, v.length = n → (∀ e ∈ v, 1 ≤ e.eval m ∧ e.eval m ≤ n) →
      (v.map (IntExpr.eval m)).Nodup → ∃! i, i < n ∧ value_at m v i = c := by
    intro v hv hb hd
    have hb' : ∀ w ∈ v.map (IntExpr.eval m), 1 ≤ w ∧ w ≤ n := by
      intro w hw
      rw [List.mem_map] at hw
      obtain ⟨e, he, rfl⟩ := hw
      exact hb e he
    obtain ⟨i, ⟨hi, e⟩, huniq⟩ :=
      each_value_once n (v.map (IntExpr.eval m)) (by simpa using hv) hd hb' c h1 h2
    have hval : ∀ j, j < n → (value_at m v j = c ↔ (v.map (IntExpr.eval m))[j]? = some c) := by
      intro j hj
      have hj' : j < v.length := by omega
      simp [value_at, List.getElem?_eq_getElem hj']
    exact ⟨i, ⟨hi, (hval i hi).2 e⟩, fun j hj => huniq j ⟨hj.1, (hval j hj.1).1 hj.2⟩⟩
  exact ⟨key xs hx hbx hdx, key ys hy hby hdy⟩

/-- Witness of `one_queen_per_column_and_row`: the sample model on the board of size four,
column 3. -/
theorem one_queen_per_column_and_row_witness :
    (queen_xs 4).length = 4 ∧ (queen_ys 4).length = 4 ∧
    (bounding_and_distinct (queen_xs 4) (queen_ys 4) 4).holds sample_model_4 = true ∧
    ((∃! i, i < 4 ∧ value_at sample_model_4 (queen_xs 4) i = 3) ∧
      (∃! i, i < 4 ∧ value_at sample_model_4 (queen_ys 4) i = 3)) :=
  ⟨by decide, by decide, by decide,
    one_queen_per_column_and_row 4 (queen_xs 4) (queen_ys 4) (by decide) (by decide)
      sample_model_4 (by decide) 3 (by decide) (by decide)⟩

/-! ## The variable factory -/

theorem toString_nat_inj (i j : Nat) (h : toString i = toString j) : i = j := by
  have := congrArg (fun s : String => decode_digits 0 s.data) h
  simpa only [decode_toString] using this

theorem label_name_inj (label : String) (i j : Nat)
    (h : label ++ "_" ++ toString i = label ++ "_" ++ toString j) : i = j := by
  apply toString_nat_inj
  have := congrArg String.data h
  simp only [String.data_append, List.append_cancel_left_eq] at this
  exact String.ext this

theorem c_str_eq_self (s : String) (h : Char.ofNat 0 ∉ s.data) : c_str s = s := by
  have : s.data.takeWhile (fun c => c != Char.ofNat 0) = s.data := by
    rw [List.takeWhile_eq_self_iff]
    intro c hc
    simp only [bne_iff_ne, ne_eq]
    rintro rfl
    exact h hc
  cases s
  simp only [c_str, this]

theorem digitChar_ne_nul (d : Nat) (hd : d < 10) : Nat.digitChar d ≠ Char.ofNat 0 := by
  interval_cases d <;> decide

theorem toDigitsCore_no_nul (fuel n : Nat) (ds : List Char) (h : Char.ofNat 0 ∉ ds) :
    Char.ofNat 0 ∉ Nat.toDigitsCore 10 fuel n ds := by
  induction fuel generalizing n ds with
  | zero => simpa [Nat.toDigitsCore] using h
  | succ fuel ih =>
    have hcons : Char.ofNat 0 ∉ Nat.digitChar (n % 10) :: ds := by
      simp only [List.mem_cons, not_or]
      exact ⟨fun e => digitChar_ne_nul _ (Nat.mod_lt _ (by decide)) e.symm, h⟩
    simp only [Nat.toDigitsCore]
    split
    · exact hcons
    · exact ih _ _ hcons

theorem toString_no_nul (i : Nat) : Char.ofNat 0 ∉ (toString i).data := by
  show Char.ofNat 0 ∉ Nat.toDigitsCore 10 (i + 1) i []
  exact toDigitsCore_no_nul _ _ _ (by simp)

theorem name_no_nul (label : String) (h : Char.ofNat 0 ∉ label.data) (i : Nat) :
    c_str (label ++ "_" ++ toString i) = label ++ "_" ++ toString i := by
  apply c_str_eq_self
  simp only [String.data_append, List.mem_append, not_or]
  exact ⟨⟨h, by decide⟩, toString_no_nul i⟩

theorem create_vector_loop_eq (n : Nat) (hn : n < 4294967296) (name : String)
    (fuel i : Nat) (xs : List IntExpr) (hi : i ≤ n) (hfuel : n - i < fuel) :
    create_vector_loop n name fuel i xs =
      some (xs ++ (List.range' i (n - i)).map
        (fun j => IntExpr.int_const (c_str (name ++ toString j)))) := by
  induction fuel generalizing i xs with
  | zero => omega
  | succ fuel ih =>
    rw [create_vector_loop]
    by_cases h : i < n
    · rw [if_pos h, Nat.mod_eq_of_lt (by omega), ih (i + 1) _ (by omega) (by omega)]
      have e : n - i = (n - (i + 1)) + 1 := by omega
      rw [e, List.range'_succ]
      simp
    · rw [if_neg h]
      have e : n - i = 0 := by omega
      simp [e]

/-- For a count below 2^32 and a name without a NUL character the loop returns, with fuel
for `n + 1` evaluations of its condition, the vector `created_vector n name`. -/
theorem create_vector_returns (n : Nat) (hn : n < 4294967296) (name : String)
    (hname : Char.ofNat 0 ∉ name.data) (fuel : Nat) (hfuel : n < fuel) :
    create_vector_with_num_names n name fuel = some (created_vector n name) := by
  rw [create_vector_with_num_names, create_vector_loop_eq n hn _ fuel 0 [] (by omega)
    (by omega), create_vector_eq]
  simp only [List.nil_append, Nat.sub_zero, Option.some.injEq, List.range_eq_range']
  apply List.map_congr_left
  intro i _
  rw [name_no_nul name hname i]

/-- The vectors of `queen_solve`: for a count in the range of an `int` the two calls of
`create_vector_with_num_names` return `queen_xs` and `queen_ys`. -/
theorem queen_vectors_created (n : Nat) (hn : n ≤ 2147483647) :
    create_vector_with_num_names n "x" (n + 1) = some (queen_xs n) ∧
    create_vector_with_num_names n "y" (n + 1) = some (queen_ys n) :=
  ⟨create_vector_returns n (by omega) "x" (by decide) (n + 1) (by omega),
    create_vector_returns n (by omega) "y" (by decide) (n + 1) (by omega)⟩

theorem create_vector_loop_wraps (n : Nat) (hn : 4294967296 ≤ n) (name : String)
    (fuel i : Nat) (xs : List IntExpr) (hi : i < 4294967296) :
    create_vector_loop n name fuel i xs = none := by
  induction fuel generalizing i xs with
  | zero => rfl
  | succ fuel ih =>
    rw [create_vector_loop, if_pos (by omega)]
    exact ih _ _ (Nat.mod_lt _ (by decide))

/-- For a count of 2^32 or more the `unsigned` counter wraps before it reaches the count:
the loop does not return, whatever the fuel. -/
theorem create_vector_never_returns (n : Nat) (hn : 4294967296 ≤ n) (name : String)
    (fuel : Nat) : create_vector_with_num_names n name fuel = none :=
  create_vector_loop_wraps n hn _ fuel 0 [] (by decide)

/-- C12 as stated fails: for the label `a`, NUL, `b` and the count 2 the two variables are
both named `a`, the C string of the label, and not `label_0` and `label_1`. -/
theorem create_vector_nul_label :
    create_vector_with_num_names 2 ⟨['a', Char.ofNat 0, 'b']⟩ 3 =
      some [.int_const "a", .int_const "a"] ∧
    (⟨['a', Char.ofNat 0, 'b']⟩ : String) ++ "_" ++ toString 0 ≠ "a" := by
  decide

/-- C12, amended: for a count `n` below 2^32 and a label without a NUL character,
`create_vector_with_num_names` returns (with fuel for `n + 1` evaluations of the loop
condition) exactly `n` integer variables, the `i`-th named by the label, an underscore and
the decimal rendering of `i`, and these `n` names are pairwise distinct. -/
theorem create_vector_names (n : Nat) (hn : n < 4294967296) (label : String)
    (hlabel : Char.ofNat 0 ∉ label.data) (fuel : Nat) (hfuel : n < fuel) :
    ∃ xs, create_vector_with_num_names n label fuel = some xs ∧
      xs.length = n ∧
      (∀ i, i < n → xs[i]? = some (IntExpr.int_const (label ++ "_" ++ toString i))) ∧
      (∀ i j, i < n → j < n → i ≠ j →
        label ++ "_" ++ toString i ≠ label ++ "_" ++ toString j) ∧
      xs.Nodup := by
  refine ⟨_, create_vector_returns n hn label hlabel fuel hfuel, create_vector_length n label,
    create_vector_getElem? n label, ?_, ?_⟩
  · intro i j _ _ hij h
    exact hij (label_name_inj label i j h)
  · rw [create_vector_eq]
    apply List.Nodup.map _ (List.nodup_range n)
    intro i j h
    exact label_name_inj label i j (IntExpr.int_const.inj h)

/-- Witness of `create_vector_names`: three variables with the label `x`. -/
theorem create_vector_names_witness :
    3 < 4294967296 ∧ Char.ofNat 0 ∉ "x".data ∧ 3 < 4 ∧
    ∃ xs, create_vector_with_num_names 3 "x" 4 = some xs ∧
      xs.length = 3 ∧
      (∀ i, i < 3 → xs[i]? = some (IntExpr.int_const ("x" ++ "_" ++ toString i))) ∧
      (∀ i j, i < 3 → j < 3 → i ≠ j → "x" ++ "_" ++ toString i ≠ "x" ++ "_" ++ toString j) ∧
      xs.Nodup :=
  ⟨by decide, by decide, by decide,
    create_vector_names 3 (by decide) "x" (by decide) 4 (by decide)⟩

/-! ## The constraint set of one queen -/

/-- C13 as stated fails: among the assertions that `queen_solve(1)` adds before the loop
there is a distinctness constraint, `distinct(x_0)`, which is no bounding constraint. -/
theorem one_queen_has_distinct_constraint :
    ∃ s, queen_constraints 1 = some s ∧ ∃ f ∈ s.assertions,
      f = BoolExpr.distinct [IntExpr.int_const "x_0"] ∧
      f ≠ .and (.ge (.int_const "x_0") (.int_val 1)) (.le (.int_const "x_0") (.int_val 1)) ∧
      f ≠ .and (.ge (.int_const "y_0") (.int_val 1)) (.le (.int_const "y_0") (.int_val 1)) := by
  refine ⟨_, queen_constraints_eq 1, _, ?_, rfl, ?_, ?_⟩
  · show BoolExpr.distinct [IntExpr.int_const "x_0"] ∈ constraint_list 1
    have : constraint_list 1 =
        [ .and (.ge (.int_const "x_0") (.int_val 1)) (.le (.int_const "x_0") (.int_val 1)),
          .and (.ge (.int_const "y_0") (.int_val 1)) (.le (.int_const "y_0") (.int_val 1)),
          .distinct [.int_const "x_0"], .distinct [.int_const "y_0"] ] := rfl
    rw [this]
    simp
  · intro h; cases h
  · intro h; cases h

/-- C13, amended: for `n = 1` the builder adds no ordering and no anti-diagonal constraint;
the assertions before the loop are the two bounding constraints and the two distinctness
constraints `distinct(x_0)`, `distinct(y_0)`, each over one variable and true in every
model. -/
theorem one_queen_constraints :
    ∃ s, queen_constraints 1 = some s ∧
      s.assertions =
        [ .and (.ge (.int_const "x_0") (.int_val 1)) (.le (.int_const "x_0") (.int_val 1)),
          .and (.ge (.int_const "y_0") (.int_val 1)) (.le (.int_const "y_0") (.int_val 1)),
          .distinct [.int_const "x_0"], .distinct [.int_const "y_0"] ] ∧
      (∀ m, (BoolExpr.distinct [.int_const "x_0"]).eval m = true ∧
        (BoolExpr.distinct [.int_const "y_0"]).eval m = true) ∧
      set_queens_order ⟨[]⟩ (queen_xs 1) (queen_ys 1) 1 = some ⟨[]⟩ ∧
      restrict_one_queen_on_diag ⟨[]⟩ (queen_xs 1) (queen_ys 1) = some ⟨[]⟩ :=
  ⟨_, queen_constraints_eq 1, rfl, fun _ => ⟨rfl, rfl⟩, rfl, rfl⟩

/-! ## An answer `unknown` -/

/-- C14: in every state of the loop, an answer `unknown` of `check()` is treated as the
answer `unsat`: the loop is left at once, without a fault, in the same state, and the same
summary line with the count of the solutions found so far is written. -/
theorem unknown_treated_as_unsat (o o' : z3_oracle) (xs ys : List IntExpr) (n fuel : Nat)
    (st : loop_state) (h : o.check st.solver.assertions = .unsat)
    (h' : o'.check st.solver.assertions = .unknown) :
    enum_loop o xs ys n (fuel + 1) st = .finished st ∧
    enum_loop o' xs ys n (fuel + 1) st = .finished st ∧
    write_summary n (enum_loop o' xs ys n (fuel + 1) st) =
      write_summary n (enum_loop o xs ys n (fuel + 1) st) ∧
    write_summary n (enum_loop o' xs ys n (fuel + 1) st) =
      .finished { st with stdout := st.stdout ++ ("solutions count for n = " ++ toString n ++
        ": " ++ toString st.solutions_count ++ "\n\n") } := by
  have e : enum_loop o xs ys n (fuel + 1) st = .finished st :=
    enum_loop_not_sat o xs ys n fuel st (by rw [h]; decide)
  have e' : enum_loop o' xs ys n (fuel + 1) st = .finished st :=
    enum_loop_not_sat o' xs ys n fuel st (by rw [h']; decide)
  refine ⟨e, e', by rw [e, e'], ?_⟩
  rw [e']
  rfl

/-- Witness of `unknown_treated_as_unsat`: the two constant oracles at the first check of
`queen_solve(4)`. -/
theorem unknown_treated_as_unsat_witness :
    unsat_oracle.check (initial_state ⟨constraint_list 4⟩ 4).solver.assertions = .unsat ∧
    unknown_oracle.check (initial_state ⟨constraint_list 4⟩ 4).solver.assertions = .unknown ∧
    enum_loop unknown_oracle (queen_xs 4) (queen_ys 4) 4 1 (initial_state ⟨constraint_list 4⟩ 4) =
      .finished (initial_state ⟨constraint_list 4⟩ 4) :=
  ⟨rfl, rfl, (unknown_treated_as_unsat unsat_oracle unknown_oracle (queen_xs 4) (queen_ys 4) 4 0
    (initial_state ⟨constraint_list 4⟩ 4) rfl rfl).2.1⟩

/-! ## The printed board -/

theorem grid_shows_init (n : Nat) :
    grid_shows n (List.replicate n (List.replicate n '+')) [] := by
  refine ⟨by simp, ?_⟩
  intro r hr
  refine ⟨List.replicate n '+', by simp [hr], by simp, ?_⟩
  intro c hc
  simp [hc]

theorem grid_shows_step (n : Nat) (board : List (List Char)) (ps : List (Int × Int))
    (h : grid_shows n board ps) (p : Int × Int)
    (hp : 1 ≤ p.2 ∧ p.2 ≤ n ∧ 1 ≤ p.1 ∧ p.1 ≤ n) :
    grid_shows n (board.modify (fun row => row.set (p.1 - 1).toNat 'Q') (p.2 - 1).toNat)
      (ps ++ [p]) := by
  obtain ⟨hlen, hrows⟩ := h
  refine ⟨by simp [hlen], ?_⟩
  intro r hr
  obtain ⟨row, hrow, hrl, hcells⟩ := hrows r hr
  by_cases hpr : (p.2 - 1).toNat = r
  · refine ⟨row.set (p.1 - 1).toNat 'Q', ?_, by simp [hrl], ?_⟩
    · rw [List.getElem?_modify, hrow]
      show some (if (p.2 - 1).toNat = r then row.set (p.1 - 1).toNat 'Q' else row) = _
      rw [if_pos hpr]
    · intro c hc
      rw [List.getElem?_set]
      by_cases hpc : (p.1 - 1).toNat = c
      · have hlt : (p.1 - 1).toNat < row.length := by omega
        have hmem : ((c : Int) + 1, (r : Int) + 1) ∈ ps ++ [p] := by
          have e : ((c : Int) + 1, (r : Int) + 1) = p := by
            apply Prod.ext <;> simp only <;> omega
          rw [e]
          simp
        rw [if_pos hpc, if_pos hlt, if_pos hmem]
      · have hne : ((c : Int) + 1, (r : Int) + 1) ≠ p := by
          intro e
          apply hpc
          rw [← e]
          simp
        rw [if_neg hpc, hcells c hc]
        simp [hne]
  · refine ⟨row, ?_, hrl, ?_⟩
    · rw [List.getElem?_modify, hrow]
      show some (if (p.2 - 1).toNat = r then row.set (p.1 - 1).toNat 'Q' else row) = some row
      rw [if_neg hpr]
    · intro c hc
      have hne : ((c : Int) + 1, (r : Int) + 1) ≠ p := by
        intro e
        apply hpr
        rw [← e]
        simp
      rw [hcells c hc]
      simp [hne]

theorem grid_fold (n : Nat) (ps done : List (Int × Int)) (board : List (List Char))
    (h : grid_shows n board done)
    (hps : ∀ p ∈ ps, 1 ≤ p.2 ∧ p.2 ≤ n ∧ 1 ≤ p.1 ∧ p.1 ≤ n) :
    ∃ board', ps.foldlM (fun board (p : Int × Int) =>
        if 1 ≤ p.2 ∧ p.2 ≤ n ∧ 1 ≤ p.1 ∧ p.1 ≤ n then
          some (board.modify (fun row => row.set (p.1 - 1).toNat 'Q') (p.2 - 1).toNat)
        else none) board = some board' ∧ grid_shows n board' (done ++ ps) := by
  induction ps generalizing board done with
  | nil => exact ⟨board, rfl, by simpa using h⟩
  | cons p ps ih =>
    have hp := hps p (List.mem_cons_self _ _)
    rw [List.foldlM_cons, if_pos hp]
    simp only [Option.bind_eq_bind, Option.some_bind]
    obtain ⟨board', e, hb⟩ := ih (done ++ [p]) _ (grid_shows_step n board done h p hp)
      (fun q hq => hps q (List.mem_cons_of_mem _ hq))
    exact ⟨board', e, by simpa using hb⟩

/-- C16: for positions within the board, the grid built by `print_board` has exactly
`board_size` rows of `board_size` cells, and the cell in row `r`, column `c` (from 0) is
`'Q'` exactly when `(c + 1, r + 1)` is one of the positions, and `'+'` otherwise. -/
theorem print_board_grid_cells (board_size : Nat) (positions : List (Int × Int))
    (h : ∀ p ∈ positions, 1 ≤ p.1 ∧ p.1 ≤ board_size ∧ 1 ≤ p.2 ∧ p.2 ≤ board_size) :
    ∃ board, print_board_grid positions board_size = some board ∧
      board.length = board_size ∧
      ∀ r, r < board_size → ∃ row, board[r]? = some row ∧ row.length = board_size ∧
        ∀ c, c < board_size → row[c]? =
          some (if ((c : Int) + 1, (r : Int) + 1) ∈ positions then 'Q' else '+') := by
  obtain ⟨board, e, hb⟩ := grid_fold board_size positions [] _ (grid_shows_init board_size)
    (fun p hp => ⟨(h p hp).2.2.1, (h p hp).2.2.2, (h p hp).1, (h p hp).2.1⟩)
  exact ⟨board, e, by simpa using hb⟩

/-- Witness of `print_board_grid_cells`: the sample placement on the board of size four. -/
theorem print_board_grid_cells_witness :
    (∀ p ∈ [((2 : Int), (1 : Int)), (4, 2), (1, 3), (3, 4)],
      1 ≤ p.1 ∧ p.1 ≤ (4 : Nat) ∧ 1 ≤ p.2 ∧ p.2 ≤ (4 : Nat)) ∧
    ∃ board, print_board_grid [(2, 1), (4, 2), (1, 3), (3, 4)] 4 = some board ∧
      board.length = 4 ∧
      ∀ r : Nat, r < 4 → ∃ row, board[r]? = some row ∧ row.length = 4 ∧
        ∀ c : Nat, c < 4 → row[c]? =
          some (if ((c : Int) + 1, (r : Int) + 1) ∈ [((2 : Int), (1 : Int)), (4, 2), (1, 3), (3, 4)]
            then 'Q' else '+') :=
  ⟨by decide, print_board_grid_cells 4 [(2, 1), (4, 2), (1, 3), (3, 4)] (by decide)⟩

/-- C15: the positions that `get_queens_positions` returns for a model of the constraint set
of `queen_solve(n)` have both coordinates in `1 .. n`, so every write of `print_board` is
inside the `n × n` grid (the out-of-range branch is not taken); and for `n` in the range of
a C++ `int` the positions are returned. -/
theorem positions_within_board (n : Nat) (s : solver) (hs : queen_constraints n = some s)
    (m : model) (hm : s.holds m = true) :
    (∀ ps, get_queens_positions m (queen_xs n) (queen_ys n) = some ps →
      (∀ p ∈ ps, 1 ≤ p.1 ∧ p.1 ≤ n ∧ 1 ≤ p.2 ∧ p.2 ≤ n) ∧
      (print_board_grid ps n).isSome = true ∧ (print_board ps n).isSome = true) ∧
    (n ≤ 2147483647 → ∃ ps, get_queens_positions m (queen_xs n) (queen_ys n) = some ps) := by
  rw [queen_constraints_eq] at hs
  cases hs
  have hb := values_bounds n m hm
  refine ⟨?_, ?_⟩
  · intro ps hps
    rw [get_queens_positions_some n m ps hps]
    refine ⟨?_, print_board_grid_isSome n _ hb, print_board_isSome n _ hb⟩
    intro p hp
    exact ⟨(hb p hp).2.2.1, (hb p hp).2.2.2, (hb p hp).1, (hb p hp).2.1⟩
  · intro hn
    refine ⟨_, get_queens_positions_eq n m ?_⟩
    intro i hi
    have hp := (holds_constraint_list n m).1 hm
    have h1 := hp.xbound i hi
    have h2 := hp.ybound i hi
    have hn' : (n : Int) ≤ 2147483647 := by exact_mod_cast hn
    exact ⟨⟨by omega, by omega⟩, ⟨by omega, by omega⟩⟩

/-- Witness of `positions_within_board`: the sample model on the board of size four. -/
theorem positions_within_board_witness :
    queen_constraints 4 = some ⟨constraint_list 4⟩ ∧
    (solver.mk (constraint_list 4)).holds sample_model_4 = true ∧
    ∃ ps, get_queens_positions sample_model_4 (queen_xs 4) (queen_ys 4) = some ps :=
  ⟨queen_constraints_eq 4, by decide,
    (positions_within_board 4 ⟨constraint_list 4⟩ (queen_constraints_eq 4) sample_model_4
      (by decide)).2 (by decide)⟩

/-! ## The row of every queen -/

/-- C18: in every model of the constraint set of `queen_solve(n)`, queen `i` stands in row
`i + 1`: the rows are strictly increasing in the queen index. -/
theorem rows_are_forced (n : Nat) (s : solver) (hs : queen_constraints n = some s)
    (m : model) (hm : s.holds m = true) :
    (∀ i, i < n → value_at m (queen_ys n) i = (i : Int) + 1) ∧
    (∀ i j, i < j → j < n → value_at m (queen_ys n) i < value_at m (queen_ys n) j) := by
  have h := (holds_build n s hs m).1 hm
  have key : ∀ i, i < n → value_at m (queen_ys n) i = (i : Int) + 1 := by
    intro i hi
    rw [value_at_ys m n i hi]
    exact row_forced h i hi
  refine ⟨key, ?_⟩
  intro i j hij hj
  rw [key i (by omega), key j hj]
  omega

/-- Witness of `rows_are_forced`: the sample model on the board of size four. -/
theorem rows_are_forced_witness :
    queen_constraints 4 = some ⟨constraint_list 4⟩ ∧
    (solver.mk (constraint_list 4)).holds sample_model_4 = true ∧
    value_at sample_model_4 (queen_ys 4) 2 = 3 :=
  ⟨queen_constraints_eq 4, by decide,
    (rows_are_forced 4 ⟨constraint_list 4⟩ (queen_constraints_eq 4) sample_model_4
      (by decide)).1 2 (by decide)⟩

/-! ## Completeness of the enumeration on an answer `unsat` -/

theorem unique_index_of_nodup {α : Type} (l : List α) (hnd : l.Nodup) (a : α) (ha : a ∈ l) :
    ∃! k : Nat, l[k]? = some a := by
  obtain ⟨k, hk, e⟩ := List.getElem_of_mem ha
  refine ⟨k, ?_, ?_⟩
  · show l[k]? = some a
    rw [List.getElem?_eq_getElem hk, e]
  intro j ej
  obtain ⟨hj, ej'⟩ := List.getElem?_eq_some_iff.1 ej
  exact (hnd.getElem_inj_iff).1 (ej'.trans e.symm)

theorem mem_satisfying_of_holds (n : Nat) (m : model)
    (hm : BoolExpr.evalAll m (constraint_list n) = true) :
    model_values m (queen_xs n) (queen_ys n) ∈ satisfying_assignments n :=
  ⟨⟨constraint_list n⟩, m, queen_constraints_eq n, hm, rfl⟩

/-- C17 (completeness): when the loop of `queen_solve(n)`, run with an oracle whose `sat`
answers come with a model, reaches a state where `check()` answers `unsat` (the state in
which the loop is left) and that answer is right, every satisfying assignment of the constraint set has been reported exactly once, nothing else has
been reported, and the number of reported models is the number of satisfying assignments;
`solutions_count`, a C++ `int`, is that number wrapped to 32 bits, hence that number
whenever it fits an `int`. -/
theorem enumeration_complete (o : z3_oracle) (ho : oracle_sound o) (n : Nat)
    (hn : n ≤ 2147483647) (fuel : Nat)
    (hunsat : o.check (queen_solve o n fuel).state.solver.assertions = .unsat)
    (hright : unsat_sound_at o (queen_solve o n fuel).state.solver.assertions) :
    (∀ a ∈ satisfying_assignments n, ∃! k : Nat,
      ((queen_solve o n fuel).state.models.map
        (fun m => model_values m (queen_xs n) (queen_ys n)))[k]? = some a) ∧
    (∀ m ∈ (queen_solve o n fuel).state.models,
      model_values m (queen_xs n) (queen_ys n) ∈ satisfying_assignments n) ∧
    (queen_solve o n fuel).state.models.length = (satisfying_assignments n).ncard ∧
    (queen_solve o n fuel).state.solutions_count =
      int_wrap (satisfying_assignments n).ncard ∧
    ((satisfying_assignments n).ncard ≤ 2147483647 →
      (queen_solve o n fuel).state.solutions_count = (satisfying_assignments n).ncard) := by
  have hinv := queen_solve_inv o ho n hn fuel
  have hdone : ∀ m, (queen_solve o n fuel).state.solver.holds m = false := hright hunsat
  have hperm := exhausted_perm n _ hinv hdone
  obtain ⟨hlen, hcount⟩ := exhausted_count n _ hinv hdone
  rw [← satisfying_assignments_ncard] at hlen hcount
  refine ⟨?_, ?_, hlen, hcount, ?_⟩
  · intro a ha
    apply unique_index_of_nodup _ hinv.2.2.1
    rw [satisfying_assignments_eq] at ha
    exact hperm.mem_iff.2 ha
  · intro m hm
    exact mem_satisfying_of_holds n m (hinv.2.1 m hm)
  · intro hsmall
    rw [hcount]
    apply int_wrap_small
    · exact Int.natCast_nonneg _
    · exact_mod_cast hsmall

theorem brute_oracle_not_sat (n : Nat) (l : List BoolExpr)
    (h : (brute_oracle n).check l ≠ .sat) : (brute_oracle n).check l = .unsat := by
  simp only [brute_oracle] at h ⊢
  split
  · rename_i hany
    rw [if_pos hany] at h
    exact absurd rfl h
  · rfl

theorem brute_oracle_last_unsat (n : Nat) (hn : n ≤ 2147483647) (fuel : Nat)
    (hfin : (queen_solve (brute_oracle n) n fuel).is_finished = true) :
    (brute_oracle n).check (queen_solve (brute_oracle n) n fuel).state.solver.assertions =
      .unsat := by
  have h := queen_solve_last_check (brute_oracle n) (brute_oracle_sound n) n hn fuel hfin
  exact brute_oracle_not_sat n _ h

/-- Witness of `enumeration_complete`: exhaustive search on the board of size four, with
fuel 3. -/
theorem enumeration_complete_witness :
    oracle_sound (brute_oracle 4) ∧ 4 ≤ 2147483647 ∧
    (queen_solve (brute_oracle 4) 4 3).is_finished = true ∧
    (brute_oracle 4).check (queen_solve (brute_oracle 4) 4 3).state.solver.assertions = .unsat ∧
    unsat_sound_at (brute_oracle 4) (queen_solve (brute_oracle 4) 4 3).state.solver.assertions ∧
    (queen_solve (brute_oracle 4) 4 3).state.models.length = (satisfying_assignments 4).ncard :=
  have hfin : (queen_solve (brute_oracle 4) 4 3).is_finished = true :=
    queen_solve_terminates _ (brute_oracle_sound 4) 4 (by decide) 3 (by decide)
  have hright : unsat_sound_at (brute_oracle 4)
      (queen_solve (brute_oracle 4) 4 3).state.solver.assertions :=
    fun _ => brute_oracle_exhausts 4 (by decide) 3 hfin
  ⟨brute_oracle_sound 4, by decide, hfin, brute_oracle_last_unsat 4 (by decide) 3 hfin, hright,
    (enumeration_complete (brute_oracle 4) (brute_oracle_sound 4) 4 (by decide) 3
      (brute_oracle_last_unsat 4 (by decide) 3 hfin) hright).2.2.1⟩

end QueensZ3
